import Mathlib

/-!
Verification of the scrabbler engine: a shallow embedding, in Lean, of the
lexicon trie (lexicon.py), move notation (move.py), board and move generator
(board.py), and the referee turn logic (referee.py), together with theorems
settling the specification claims.  Python strings are modelled as `List Char`,
mutable state is threaded explicitly, and fallible operations return `Except`
or pair the new state with an optional error.
-/

namespace Scrabbler

/-! ### Lexicon trie (src/scrabbler/lexicon.py)

A trie node is a Python dict from characters to child nodes, with a `_final`
marker.  We model it as a boolean flag plus an association list of children.
-/

inductive Lex where
  | node (final : Bool) (children : List (Char × Lex))

def Lex.final : Lex → Bool
  | .node f _ => f

def Lex.children : Lex → List (Char × Lex)
  | .node _ cs => cs

/-- Association-list lookup of a child edge, as dict indexing in the source. -/
def lexLookup : List (Char × Lex) → Char → Option Lex
  | [], _ => none
  | (c, t) :: rest, x => if c = x then some t else lexLookup rest x

def Lex.step (t : Lex) (c : Char) : Option Lex := lexLookup t.children c

/-- Lexicon.subtree: walk the edges for a prefix; `none` when absent. -/
def Lex.descend (t : Lex) : List Char → Option Lex
  | [] => some t
  | c :: cs =>
    match t.step c with
    | none => none
    | some t2 => t2.descend cs

/-- Lexicon.exists: walk the word and test the final marker. -/
def Lex.existsW (t : Lex) (w : List Char) : Bool :=
  match t.descend w with
  | none => false
  | some t2 => t2.final

/-- Lexicon.next: the edge labels leading out of this node. -/
def Lex.nextL (t : Lex) : List Char := t.children.map Prod.fst

/-- Lexicon.add for the children list: insert along one edge. -/
def lexAddChild (ins : Lex → Lex) (c : Char) : List (Char × Lex) → List (Char × Lex)
  | [] => [(c, ins (.node false []))]
  | (c2, t2) :: cs => if c2 = c then (c2, ins t2) :: cs else (c2, t2) :: lexAddChild ins c cs

/-- Lexicon.add: insert a word, creating nodes and marking the last final. -/
def Lex.add (t : Lex) : List Char → Lex
  | [] => .node true t.children
  | c :: rest => .node t.final (lexAddChild (fun t2 => t2.add rest) c t.children)

def Lex.empty : Lex := .node false []

def lexOf (ws : List (List Char)) : Lex := ws.foldl Lex.add Lex.empty

/-! ### Move notation (src/scrabbler/move.py) -/

inductive MoveKind where
  | across
  | down
  | trade
deriving DecidableEq, Repr

structure Move where
  row : Option Int
  col : Option Int
  kind : MoveKind
  word : List Char
  tmask : List Bool
  score : Int
deriving DecidableEq, Repr

/-- Move.__init__ with the default tmask (None becomes all-True) and score 0. -/
def Move.mkDefault (row col : Option Int) (kind : MoveKind) (word : List Char) : Move :=
  ⟨row, col, kind, word, List.replicate word.length true, 0⟩

/-- Move.tiles: the word positions whose tile-mask entry is true. -/
def Move.tiles (m : Move) : List Char :=
  (m.word.zip m.tmask).filterMap (fun p => if p.2 then some p.1 else none)

/-- Move.mask_word: replace the word by stars. -/
def Move.maskWord (m : Move) : Move :=
  { m with word := List.replicate m.word.length '*' }

/-- Decimal digit character, as produced by Python str() on an integer. -/
def digitChar : Nat → Char
  | 0 => '0' | 1 => '1' | 2 => '2' | 3 => '3' | 4 => '4'
  | 5 => '5' | 6 => '6' | 7 => '7' | 8 => '8' | 9 => '9'
  | _ => '0'

/-- Decimal rendering of a natural number, most significant digit first.
A structural fuel argument (any value above n suffices) keeps the definition
kernel-reducible. -/
def digitsOfAux : Nat → Nat → List Char
  | 0, _ => []
  | fuel + 1, n =>
    if n < 10 then [digitChar n]
    else digitsOfAux fuel (n / 10) ++ [digitChar (n % 10)]

def digitsOf (n : Nat) : List Char := digitsOfAux (n + 1) n

theorem digitsOfAux_irrel : ∀ fuel fuel2 n, n < fuel → n < fuel2 →
    digitsOfAux fuel n = digitsOfAux fuel2 n := by
  intro fuel
  induction fuel with
  | zero => intro fuel2 n h1 _; omega
  | succ f ih =>
    intro fuel2 n h1 h2
    cases fuel2 with
    | zero => omega
    | succ f2 =>
      simp only [digitsOfAux]
      split
      · rfl
      · have hn : 10 ≤ n := by omega
        have hd : n / 10 < n := Nat.div_lt_self (by omega) (by omega)
        rw [ih f2 (n / 10) (by omega) (by omega)]

theorem digitsOf_unfold (n : Nat) : digitsOf n =
    if n < 10 then [digitChar n] else digitsOf (n / 10) ++ [digitChar (n % 10)] := by
  show digitsOfAux (n + 1) n = _
  simp only [digitsOfAux]
  split
  · rfl
  · have hn : 10 ≤ n := by omega
    have hd : n / 10 < n := Nat.div_lt_self (by omega) (by omega)
    rw [digitsOfAux_irrel n (n / 10 + 1) (n / 10) (by omega) (by omega)]
    rfl

/-- Numeric value of a digit string, as Python int(). -/
def natOfDigits (ds : List Char) : Nat :=
  ds.foldl (fun a c => a * 10 + (c.toNat - 48)) 0

/-- Row as rendered by Move.position: str(row + 1), or a dash when absent.
Faithful for rows at least -1 (real moves never render negative rows). -/
def rowStr : Option Int → List Char
  | none => ['-']
  | some r => digitsOf (r + 1).toNat

/-- Column as rendered by Move.position: chr(ord A + col), or a dash.
Faithful for columns in 0..25. -/
def colStr : Option Int → List Char
  | none => ['-']
  | some c => [Char.ofNat (65 + c.toNat)]

/-- Move.position: column-first for DOWN, row-first otherwise. -/
def Move.position (m : Move) : List Char :=
  if m.kind = .down then colStr m.col ++ rowStr m.row
  else rowStr m.row ++ colStr m.col

/-- Move.__str__ word loop: emit an open paren when the mask turns false and a
close paren when it turns true again, tracking the previous mask bit. -/
def renderAux : List (Char × Bool) → Bool → List Char
  | [], mode => if mode then [] else [')']
  | (w, t) :: rest, mode =>
    (if mode && !t then ['('] else if !mode && t then [')'] else []) ++ w :: renderAux rest t

def renderWord (word : List Char) (tmask : List Bool) : List Char :=
  renderAux (word.zip tmask) true

/-- Move.__str__: the rendered word and position, or just the position when the
word is empty. -/
def Move.toStr (m : Move) : List Char :=
  if m.word ≠ [] then renderWord m.word m.tmask ++ ' ' :: m.position
  else m.position

/-- Move.__eq__ compares canonical rendered strings. -/
def Move.eqMove (m1 m2 : Move) : Bool := m1.toStr = m2.toStr

/-- Python str.split(): split on runs of whitespace, dropping empty pieces. -/
def splitWsAux : List Char → List Char → List (List Char)
  | [], acc => if acc = [] then [] else [acc.reverse]
  | c :: rest, acc =>
    if c.isWhitespace then
      (if acc = [] then splitWsAux rest [] else acc.reverse :: splitWsAux rest [])
    else splitWsAux rest (c :: acc)

def splitWs (s : List Char) : List (List Char) := splitWsAux s []

/-- Position regex `[A-Z][0-9]+` then `[0-9]+[A-Z]`; the second match wins
(they are mutually exclusive).  Yields kind, row = number - 1, col = letter
distance from A. -/
def posDown : List Char → Option (MoveKind × Int × Int)
  | [] => none
  | l :: rest =>
    if l.isUpper ∧ rest ≠ [] ∧ rest.all Char.isDigit then
      some (.down, (natOfDigits rest : Int) - 1, (l.toNat : Int) - 65)
    else none

def posAcross (pos : List Char) : Option (MoveKind × Int × Int) :=
  match pos.getLast? with
  | none => none
  | some l =>
    if l.isUpper ∧ pos.dropLast ≠ [] ∧ pos.dropLast.all Char.isDigit then
      some (.across, (natOfDigits pos.dropLast : Int) - 1, (l.toNat : Int) - 65)
    else none

def parsePos (pos : List Char) : Option (MoveKind × Int × Int) :=
  match posAcross pos with
  | some x => some x
  | none => posDown pos

/-- Word regex for ACROSS and DOWN moves: letters and parens, or all stars. -/
def placeWordOk (w : List Char) : Bool :=
  (decide (w ≠ []) && w.all (fun c => c.isAlpha || c = '(' || c = ')')) ||
  (decide (w ≠ []) && w.all (fun c => c = '*'))

/-- Word regex for TRADE moves: letters and question marks, or all stars. -/
def tradeWordOk (w : List Char) : Bool :=
  w.all (fun c => c.isAlpha || c = '?') || w.all (fun c => c = '*')

/-- Tile-mask scan in Move.from_str: parens toggle the mode, other characters
record the current mode. -/
def scanMask : List Char → Bool → List Bool
  | [], _ => []
  | c :: rest, mode =>
    if c = '(' then scanMask rest false
    else if c = ')' then scanMask rest true
    else mode :: scanMask rest mode

/-- Paren removal in Move.from_str (word.replace on both parens). -/
def stripParens (w : List Char) : List Char :=
  w.filter (fun c => decide (c ≠ '(') && decide (c ≠ ')'))

/-- Move.from_str.  Every failure raises InvalidMoveError in the source; the
error payload here is its message. -/
def Move.fromStr (s : List Char) : Except (List Char) Move :=
  let wp : Except (List Char) (List Char × List Char) :=
    if s = ['-', '-'] then .ok ([], ['-', '-'])
    else
      match splitWs s with
      | [word, pos] => .ok (word, pos)
      | _ => .error ("value unpack error".toList)
  match wp with
  | .error e => .error e
  | .ok (word, pos) =>
    let kro : Option (MoveKind × Option Int × Option Int) :=
      if pos = ['-', '-'] then some (.trade, none, none)
      else
        match parsePos pos with
        | some (k, r, c) => some (k, some r, some c)
        | none => none
    match kro with
    | none => .error ("invalid position".toList)
    | some (k, r, c) =>
      if k = .trade then
        if tradeWordOk word then
          .ok ⟨r, c, .trade, word, List.replicate word.length true, 0⟩
        else .error ("invalid word: ".toList ++ word)
      else
        if placeWordOk word then
          .ok ⟨r, c, k, stripParens word, scanMask word true, 0⟩
        else .error ("invalid word: ".toList ++ word)

/-! ### Maximal-run view of the renderer (spec side, for claim C8)

The spec describes `render` as parenthesizing exactly the maximal runs where
the tile mask is false.  `maskRuns` groups a word into maximal runs of equal
mask bits and `joinRuns` wraps the false runs in parens. -/

def maskRuns : List (Char × Bool) → List (List Char × Bool)
  | [] => []
  | (c, b) :: rest =>
    match maskRuns rest with
    | (run, b2) :: more =>
      if b = b2 then (c :: run, b) :: more else ([c], b) :: (run, b2) :: more
    | [] => [([c], b)]

def joinRuns : List (List Char × Bool) → List Char
  | [] => []
  | (run, b) :: more => (if b then run else '(' :: (run ++ [')'])) ++ joinRuns more

def closeJoin : List (List Char × Bool) → List Char
  | [] => [')']
  | (run, b) :: more => if b then ')' :: (run ++ joinRuns more) else run ++ closeJoin more

/-! ### Lemmas on characters and digits -/

theorem charToNat_ofValid (m : Nat) (h : Nat.isValidChar m) : (Char.ofNat m).toNat = m := by
  rw [Char.ofNat, dif_pos h]
  rfl

theorem digitChar_toNat (d : Nat) (h : d < 10) : (digitChar d).toNat = 48 + d := by
  interval_cases d <;> rfl

theorem digitChar_isDigit (d : Nat) (h : d < 10) : (digitChar d).isDigit = true := by
  interval_cases d <;> decide

theorem digitChar_notUpper (d : Nat) (h : d < 10) : (digitChar d).isUpper = false := by
  interval_cases d <;> decide

theorem digitsOf_ne_nil (n : Nat) : digitsOf n ≠ [] := by
  rw [digitsOf_unfold]
  split <;> simp

theorem digitsOf_all_digit (n : Nat) : ∀ c ∈ digitsOf n, c.isDigit = true := by
  induction n using Nat.strong_induction_on with
  | _ n ih =>
    rw [digitsOf_unfold]
    split
    · intro c hc
      simp only [List.mem_singleton] at hc
      subst hc
      exact digitChar_isDigit n (by omega)
    · intro c hc
      rcases List.mem_append.mp hc with h1 | h2
      · exact ih (n / 10) (Nat.div_lt_self (by omega) (by omega)) c h1
      · simp only [List.mem_singleton] at h2
        subst h2
        exact digitChar_isDigit (n % 10) (Nat.mod_lt n (by omega))

theorem digitsOf_getLast (n : Nat) : (digitsOf n).getLast? = some (digitChar (n % 10)) := by
  rw [digitsOf_unfold]
  split
  · rw [Nat.mod_eq_of_lt (by omega)]
    simp
  · simp

theorem natOfDigits_append_one (xs : List Char) (c : Char) :
    natOfDigits (xs ++ [c]) = natOfDigits xs * 10 + (c.toNat - 48) := by
  simp [natOfDigits, List.foldl_append]

theorem natOfDigits_digitsOf (n : Nat) : natOfDigits (digitsOf n) = n := by
  induction n using Nat.strong_induction_on with
  | _ n ih =>
    rw [digitsOf_unfold]
    split
    · simp [natOfDigits, digitChar_toNat n (by omega)]
    · rw [natOfDigits_append_one, ih (n / 10) (Nat.div_lt_self (by omega) (by omega)),
        digitChar_toNat (n % 10) (Nat.mod_lt n (by omega))]
      omega

theorem isDigit_notWs (c : Char) (h : c.isDigit = true) : c.isWhitespace = false := by
  by_contra hw
  simp only [Bool.not_eq_false, Char.isWhitespace, Bool.or_eq_true, decide_eq_true_eq] at hw
  rcases hw with ((h1 | h1) | h1) | h1 <;> (subst h1; exact absurd h (by decide))

theorem isAlpha_notWs (c : Char) (h : c.isAlpha = true) : c.isWhitespace = false := by
  by_contra hw
  simp only [Bool.not_eq_false, Char.isWhitespace, Bool.or_eq_true, decide_eq_true_eq] at hw
  rcases hw with ((h1 | h1) | h1) | h1 <;> (subst h1; exact absurd h (by decide))

theorem isAlpha_ne_lparen (c : Char) (h : c.isAlpha = true) : c ≠ '(' := by
  intro he
  subst he
  exact absurd h (by decide)

theorem isAlpha_ne_rparen (c : Char) (h : c.isAlpha = true) : c ≠ ')' := by
  intro he
  subst he
  exact absurd h (by decide)

theorem isDigit_notUpper (c : Char) (h : c.isDigit = true) : c.isUpper = false := by
  simp only [Char.isDigit, Bool.and_eq_true, decide_eq_true_eq] at h
  simp only [Char.isUpper, Bool.and_eq_false_iff, decide_eq_false_iff_not]
  left
  intro hc
  have h2 := h.2
  simp only [Char.le_def, UInt32.le_def, BitVec.le_def] at h2 hc
  have e1 : (UInt32.toBitVec 57).toNat = 57 := rfl
  have e2 : (UInt32.toBitVec 65).toNat = 65 := rfl
  omega


theorem colChar_toNat (c : Nat) (h : c ≤ 25) : (Char.ofNat (65 + c)).toNat = 65 + c :=
  charToNat_ofValid _ (Or.inl (by omega))

theorem colChar_isUpper (c : Nat) (h : c ≤ 25) : (Char.ofNat (65 + c)).isUpper = true := by
  interval_cases c <;> decide

theorem colChar_notWs (c : Nat) (h : c ≤ 25) : (Char.ofNat (65 + c)).isWhitespace = false := by
  interval_cases c <;> decide

/-! ### Lemmas on whitespace splitting -/

theorem splitWsAux_chunk (w : List Char) (rest acc : List Char)
    (hw : ∀ c ∈ w, c.isWhitespace = false) :
    splitWsAux (w ++ rest) acc = splitWsAux rest (w.reverse ++ acc) := by
  induction w generalizing acc with
  | nil => simp
  | cons c w ih =>
    simp only [List.cons_append, splitWsAux]
    rw [hw c (by simp)]
    simp only [Bool.false_eq_true, if_false]
    simpa [List.append_assoc] using ih (c :: acc) (fun x hx => hw x (by simp [hx]))

theorem splitWs_two (w p : List Char) (hw0 : w ≠ []) (hp0 : p ≠ [])
    (hw : ∀ c ∈ w, c.isWhitespace = false) (hp : ∀ c ∈ p, c.isWhitespace = false) :
    splitWs (w ++ ' ' :: p) = [w, p] := by
  unfold splitWs
  rw [splitWsAux_chunk w (' ' :: p) [] hw]
  simp only [List.append_nil, splitWsAux]
  have : (' ' : Char).isWhitespace = true := by decide
  rw [this]
  simp only [if_true]
  have hwr : w.reverse ≠ [] := by simpa using hw0
  rw [if_neg hwr]
  have : splitWsAux p [] = splitWsAux [] p.reverse := by
    simpa using splitWsAux_chunk p [] [] hp
  rw [this]
  simp [splitWsAux, hp0]

/-! ### Lemmas on the word renderer and the from_str scanner -/

theorem renderAux_chars (pairs : List (Char × Bool)) (mode : Bool) :
    ∀ c ∈ renderAux pairs mode, c = '(' ∨ c = ')' ∨ ∃ p ∈ pairs, c = p.1 := by
  induction pairs generalizing mode with
  | nil =>
    intro c hc
    simp only [renderAux] at hc
    split at hc <;> simp_all
  | cons p rest ih =>
    intro c hc
    obtain ⟨w, t⟩ := p
    simp only [renderAux, List.mem_append] at hc
    rcases hc with h1 | h2
    · split at h1 <;> simp_all
    · rcases List.mem_cons.mp h2 with h3 | h3
      · subst h3
        exact Or.inr (Or.inr ⟨(c, t), by simp⟩)
      · rcases ih t c h3 with h | h | ⟨q, hq, he⟩
        · exact Or.inl h
        · exact Or.inr (Or.inl h)
        · exact Or.inr (Or.inr ⟨q, by simp [hq], he⟩)

theorem scanMask_renderAux (pairs : List (Char × Bool)) (mode : Bool)
    (hok : ∀ p ∈ pairs, p.1 ≠ '(' ∧ p.1 ≠ ')') :
    scanMask (renderAux pairs mode) mode = pairs.map Prod.snd ∧
    stripParens (renderAux pairs mode) = pairs.map Prod.fst := by
  induction pairs generalizing mode with
  | nil =>
    simp only [renderAux]
    split <;> simp [scanMask, stripParens]
  | cons p rest ih =>
    obtain ⟨w, t⟩ := p
    have hw := hok (w, t) (by simp)
    have ihr := ih t (fun q hq => hok q (by simp [hq]))
    simp only [renderAux]
    rcases mode with _ | _ <;> rcases t with _ | _ <;>
      simp_all [scanMask, stripParens, List.filter]

theorem renderWord_allTrue (w : List Char) :
    renderWord w (List.replicate w.length true) = w := by
  unfold renderWord
  induction w with
  | nil => rfl
  | cons c rest ih =>
    simp only [List.length_cons, List.replicate_succ, List.zip_cons_cons, renderAux]
    simpa using ih

theorem maskRuns_cons (c : Char) (bc : Bool) (rest : List (Char × Bool)) :
    maskRuns ((c, bc) :: rest) =
      match maskRuns rest with
      | (run, b2) :: more =>
        if bc = b2 then (c :: run, bc) :: more else ([c], bc) :: (run, b2) :: more
      | [] => [([c], bc)] := rfl

theorem maskRuns_alt (pairs : List (Char × Bool)) :
    ∀ run b more, maskRuns pairs = (run, b) :: more →
      more = [] ∨ ∃ r2 m2, more = (r2, !b) :: m2 := by
  induction pairs with
  | nil => intro run b more h; simp [maskRuns] at h
  | cons p rest ih =>
    intro run b more h
    obtain ⟨c, bc⟩ := p
    rw [maskRuns_cons] at h
    rcases hres : maskRuns rest with _ | ⟨⟨run2, b2⟩, more2⟩
    · rw [hres] at h
      simp only [List.cons.injEq, Prod.mk.injEq] at h
      left
      exact h.2.symm
    · rw [hres] at h
      by_cases hb : bc = b2
      · simp only [if_pos hb, List.cons.injEq, Prod.mk.injEq] at h
        obtain ⟨⟨_, hb2⟩, hm⟩ := h
        subst hm hb2
        subst hb
        exact ih run2 bc more2 hres
      · simp only [if_neg hb, List.cons.injEq, Prod.mk.injEq] at h
        obtain ⟨⟨h1, h2⟩, hm⟩ := h
        right
        refine ⟨run2, more2, ?_⟩
        have hb2 : b2 = !b := by subst h2; cases bc <;> cases b2 <;> simp_all
        rw [← hm, hb2]

theorem renderAux_eq_runs (pairs : List (Char × Bool)) (mode : Bool) :
    renderAux pairs mode =
      if mode then joinRuns (maskRuns pairs) else closeJoin (maskRuns pairs) := by
  induction pairs generalizing mode with
  | nil => rcases mode with _ | _ <;> simp [renderAux, maskRuns, joinRuns, closeJoin]
  | cons p rest ih =>
    obtain ⟨c, t⟩ := p
    have ihT : renderAux rest true = joinRuns (maskRuns rest) := by simpa using ih true
    have ihF : renderAux rest false = closeJoin (maskRuns rest) := by simpa using ih false
    rcases hres : maskRuns rest with _ | ⟨⟨run2, b2⟩, more2⟩
    · rw [hres] at ihT ihF
      rcases mode with _ | _ <;> rcases t with _ | _ <;>
        simp [renderAux, maskRuns_cons, hres, joinRuns, closeJoin, ihT, ihF]
    · rw [hres] at ihT ihF
      by_cases hb : t = b2
      · subst hb
        rcases mode with _ | _ <;> rcases t with _ | _
        · -- mode false, run continues false
          simp [renderAux, maskRuns_cons, hres, joinRuns, closeJoin, ihT, ihF]
        · -- mode false, run continues true
          simp [renderAux, maskRuns_cons, hres, joinRuns, closeJoin, ihT, ihF]
        · -- mode true, t false: needs the alternation invariant
          rcases maskRuns_alt rest run2 false more2 hres with hmm | ⟨r3, m3, hmm⟩ <;>
            subst hmm <;>
            simp [renderAux, maskRuns_cons, hres, joinRuns, closeJoin, ihT, ihF]
        · -- mode true, run continues true
          simp [renderAux, maskRuns_cons, hres, joinRuns, closeJoin, ihT, ihF]
      · have hb2 : b2 = !t := by cases t <;> cases b2 <;> simp_all
        subst hb2
        rcases mode with _ | _ <;> rcases t with _ | _ <;>
          simp [renderAux, maskRuns_cons, hres, joinRuns, closeJoin, ihT, ihF]

/-! ### Position parsing lemmas -/

theorem isDigit_toNat (c : Char) (h : c.isDigit = true) : 48 ≤ c.toNat ∧ c.toNat ≤ 57 := by
  simp only [Char.isDigit, Bool.and_eq_true, decide_eq_true_eq] at h
  obtain ⟨h1, h2⟩ := h
  simp only [Char.le_def, UInt32.le_def, BitVec.le_def] at h1 h2
  have e1 : (UInt32.toBitVec 57).toNat = 57 := rfl
  have e2 : (UInt32.toBitVec 48).toNat = 48 := rfl
  have e3 : c.val.toNat = c.val.toBitVec.toNat := rfl
  unfold Char.toNat
  constructor <;> omega

theorem getLast?_cons_of_getLast? (a : Char) (l : List Char) (x : Char)
    (h : l.getLast? = some x) : (a :: l).getLast? = some x := by
  cases l with
  | nil => simp at h
  | cons b t => rw [List.getLast?_cons_cons]; exact h

theorem parsePos_down (ci : Nat) (hc : ci ≤ 25) (n : Nat) :
    parsePos (Char.ofNat (65 + ci) :: digitsOf n) = some (.down, (n : Int) - 1, (ci : Int)) := by
  have hacross : posAcross (Char.ofNat (65 + ci) :: digitsOf n) = none := by
    unfold posAcross
    have hlast : (Char.ofNat (65 + ci) :: digitsOf n).getLast? = some (digitChar (n % 10)) :=
      getLast?_cons_of_getLast? _ _ _ (digitsOf_getLast n)
    rw [hlast]
    have hnotup : (digitChar (n % 10)).isUpper = false :=
      digitChar_notUpper _ (Nat.mod_lt n (by omega))
    simp [hnotup]
  have hdown : posDown (Char.ofNat (65 + ci) :: digitsOf n) =
      some (.down, (n : Int) - 1, (ci : Int)) := by
    simp only [posDown]
    rw [if_pos]
    · rw [natOfDigits_digitsOf, colChar_toNat ci hc]
      norm_num
    · refine ⟨colChar_isUpper ci hc, digitsOf_ne_nil n, ?_⟩
      rw [List.all_eq_true]
      exact fun c hcm => digitsOf_all_digit n c hcm
  unfold parsePos
  rw [hacross, hdown]

theorem parsePos_across (ci : Nat) (hc : ci ≤ 25) (n : Nat) :
    parsePos (digitsOf n ++ [Char.ofNat (65 + ci)]) = some (.across, (n : Int) - 1, (ci : Int)) := by
  have hacross : posAcross (digitsOf n ++ [Char.ofNat (65 + ci)]) =
      some (.across, (n : Int) - 1, (ci : Int)) := by
    simp only [posAcross, List.getLast?_concat, List.dropLast_concat]
    rw [if_pos]
    · rw [natOfDigits_digitsOf, colChar_toNat ci hc]
      norm_num
    · refine ⟨colChar_isUpper ci hc, digitsOf_ne_nil n, ?_⟩
      rw [List.all_eq_true]
      exact fun c hcm => digitsOf_all_digit n c hcm
  unfold parsePos
  rw [hacross]

theorem digit_ne_dash (c : Char) (h : c.isDigit = true) : c ≠ '-' := by
  intro he
  subst he
  exact absurd h (by decide)

theorem colChar_ne_dash (ci : Nat) (hc : ci ≤ 25) : Char.ofNat (65 + ci) ≠ '-' := by
  intro he
  have h1 := colChar_toNat ci hc
  rw [he] at h1
  have h2 : ('-' : Char).toNat = 45 := rfl
  omega

theorem renderAux_ne_nil (p : Char × Bool) (rest : List (Char × Bool)) (mode : Bool) :
    renderAux (p :: rest) mode ≠ [] := by
  obtain ⟨w, t⟩ := p
  simp only [renderAux]
  intro h
  rcases List.append_eq_nil.mp h with ⟨_, h2⟩
  exact List.cons_ne_nil _ _ h2

theorem fromStr_place (s word pos : List Char) (k : MoveKind) (r c : Int)
    (h2 : s ≠ ['-', '-']) (h3 : splitWs s = [word, pos]) (h4 : pos ≠ ['-', '-'])
    (h5 : parsePos pos = some (k, r, c)) (h6 : k ≠ .trade) (h7 : placeWordOk word = true) :
    Move.fromStr s = .ok ⟨some r, some c, k, stripParens word, scanMask word true, 0⟩ := by
  unfold Move.fromStr
  rw [if_neg h2, h3]
  simp only []
  rw [if_neg h4, h5]
  simp only []
  rw [if_neg h6, if_pos h7]

theorem fromStr_tradeWord (s word : List Char)
    (h2 : s ≠ ['-', '-']) (h3 : splitWs s = [word, ['-', '-']]) (h7 : tradeWordOk word = true) :
    Move.fromStr s = .ok ⟨none, none, .trade, word, List.replicate word.length true, 0⟩ := by
  unfold Move.fromStr
  rw [if_neg h2, h3]
  simp [h7]

theorem fromStr_dashes :
    Move.fromStr ['-', '-'] = .ok ⟨none, none, .trade, [], [], 0⟩ := by
  rfl

theorem posFacts_down (r c : Int) (hr : 0 ≤ r) (hc : 0 ≤ c) (hc2 : c ≤ 25) (m : Move)
    (hrow : m.row = some r) (hcol : m.col = some c) (hkind : m.kind = .down) :
    parsePos m.position = some (m.kind, r, c) ∧ m.position ≠ ['-', '-'] ∧
      m.position ≠ [] ∧ (∀ ch ∈ m.position, ch.isWhitespace = false) := by
  have hposeq : m.position = Char.ofNat (65 + c.toNat) :: digitsOf ((r + 1).toNat) := by
    simp [Move.position, hkind, hrow, hcol, rowStr, colStr]
  have hci : c.toNat ≤ 25 := by omega
  have h1 := parsePos_down c.toNat hci ((r + 1).toNat)
  have e1 : (((r + 1).toNat : Nat) : Int) = r + 1 := Int.toNat_of_nonneg (by omega)
  have e2 : ((c.toNat : Nat) : Int) = c := Int.toNat_of_nonneg hc
  rw [e1, e2] at h1
  refine ⟨?_, ?_, ?_, ?_⟩
  · rw [hposeq, hkind, h1]
    norm_num
  · rw [hposeq]
    intro heq
    have : Char.ofNat (65 + c.toNat) = '-' := (List.cons.injEq _ _ _ _).mp heq |>.1
    exact colChar_ne_dash c.toNat hci this
  · rw [hposeq]
    exact List.cons_ne_nil _ _
  · rw [hposeq]
    intro ch hch
    rcases List.mem_cons.mp hch with h | h
    · subst h
      exact colChar_notWs c.toNat hci
    · exact isDigit_notWs ch (digitsOf_all_digit _ ch h)

theorem posFacts_across (r c : Int) (hr : 0 ≤ r) (hc : 0 ≤ c) (hc2 : c ≤ 25) (m : Move)
    (hrow : m.row = some r) (hcol : m.col = some c) (hkind : m.kind = .across) :
    parsePos m.position = some (m.kind, r, c) ∧ m.position ≠ ['-', '-'] ∧
      m.position ≠ [] ∧ (∀ ch ∈ m.position, ch.isWhitespace = false) := by
  have hposeq : m.position = digitsOf ((r + 1).toNat) ++ [Char.ofNat (65 + c.toNat)] := by
    simp [Move.position, hkind, hrow, hcol, rowStr, colStr]
  have hci : c.toNat ≤ 25 := by omega
  have h1 := parsePos_across c.toNat hci ((r + 1).toNat)
  have e1 : (((r + 1).toNat : Nat) : Int) = r + 1 := Int.toNat_of_nonneg (by omega)
  have e2 : ((c.toNat : Nat) : Int) = c := Int.toNat_of_nonneg hc
  rw [e1, e2] at h1
  refine ⟨?_, ?_, ?_, ?_⟩
  · rw [hposeq, hkind, h1]
    norm_num
  · rw [hposeq]
    intro heq
    have h3 : (digitsOf ((r + 1).toNat) ++ [Char.ofNat (65 + c.toNat)]).getLast? = some '-' := by
      rw [heq]
      rfl
    rw [List.getLast?_concat] at h3
    exact colChar_ne_dash c.toNat hci (Option.some.injEq _ _ ▸ h3 |> Option.some.inj)
  · rw [hposeq]
    simp
  · rw [hposeq]
    intro ch hch
    rcases List.mem_append.mp hch with h | h
    · exact isDigit_notWs ch (digitsOf_all_digit _ ch h)
    · rw [List.mem_singleton] at h
      subst h
      exact colChar_notWs c.toNat hci

theorem renderWord_facts (w : List Char) (t : List Bool)
    (hw0 : w ≠ []) (hwa : ∀ ch ∈ w, ch.isAlpha = true) (hlen : t.length = w.length) :
    renderWord w t ≠ [] ∧ (∀ ch ∈ renderWord w t, ch.isWhitespace = false) ∧
      placeWordOk (renderWord w t) = true ∧
      scanMask (renderWord w t) true = t ∧ stripParens (renderWord w t) = w := by
  have hchars : ∀ ch ∈ renderWord w t, ch = '(' ∨ ch = ')' ∨ ch.isAlpha = true := by
    intro ch hch
    rcases renderAux_chars (w.zip t) true ch hch with h | h | ⟨p, hp, he⟩
    · exact Or.inl h
    · exact Or.inr (Or.inl h)
    · refine Or.inr (Or.inr ?_)
      subst he
      exact hwa p.1 (List.of_mem_zip hp).1
  have hne : renderWord w t ≠ [] := by
    rcases w with _ | ⟨wh, wt⟩
    · exact absurd rfl hw0
    · rcases t with _ | ⟨th, tt⟩
      · simp at hlen
      · exact renderAux_ne_nil (wh, th) _ true
  have hok : ∀ p ∈ w.zip t, p.1 ≠ '(' ∧ p.1 ≠ ')' := by
    intro p hp
    have ha := hwa p.1 (List.of_mem_zip hp).1
    exact ⟨isAlpha_ne_lparen _ ha, isAlpha_ne_rparen _ ha⟩
  have hscan := scanMask_renderAux (w.zip t) true hok
  refine ⟨hne, ?_, ?_, ?_, ?_⟩
  · intro ch hch
    rcases hchars ch hch with h | h | h
    · subst h; decide
    · subst h; decide
    · exact isAlpha_notWs ch h
  · unfold placeWordOk
    rw [Bool.or_eq_true]
    left
    rw [Bool.and_eq_true]
    refine ⟨by simpa using hne, ?_⟩
    rw [List.all_eq_true]
    intro ch hch
    rcases hchars ch hch with h | h | h
    · subst h; decide
    · subst h; decide
    · simp [h]
  · rw [renderWord, hscan.1, List.map_snd_zip _ _ (le_of_eq hlen)]
  · rw [renderWord, hscan.2, List.map_fst_zip _ _ (le_of_eq hlen.symm)]

/-- C8: round-trip of move notation.  For every well-formed move `m` whose word
carries no `*` masking (a placement move with a nonempty alphabetic word, an
in-range position and a mask of matching length; or a trade whose word is made
of tile glyphs with the default all-true mask), parsing the rendered string of
`m` yields a move equal to `m`, where move equality is canonical rendered-string
equality.  Moreover rendering parenthesizes exactly the maximal runs where the
tile mask is false, and a move with an empty word renders as just its position,
which for a TRADE is the two-dash string. -/
theorem c8_move_notation_roundtrip (m : Move) (r c : Int)
    (h : (m.kind ≠ .trade ∧ m.row = some r ∧ m.col = some c ∧ 0 ≤ r ∧ 0 ≤ c ∧ c ≤ 25 ∧
          m.word ≠ [] ∧ (∀ ch ∈ m.word, ch.isAlpha = true) ∧ m.tmask.length = m.word.length)
       ∨ (m.kind = .trade ∧ m.row = none ∧ m.col = none ∧
          (∀ ch ∈ m.word, ch.isAlpha = true ∨ ch = '?') ∧
          m.tmask = List.replicate m.word.length true)) :
    (∃ m2, Move.fromStr m.toStr = .ok m2 ∧ m2.toStr = m.toStr) ∧
      renderWord m.word m.tmask = joinRuns (maskRuns (m.word.zip m.tmask)) ∧
      (m.word = [] → m.toStr = m.position) ∧
      (m.word = [] → m.kind = .trade → m.row = none → m.col = none →
        m.toStr = ['-', '-']) := by
  obtain ⟨row, col, kind, word, tmask, score⟩ := m
  simp only at h ⊢
  refine ⟨?_, by simpa using renderAux_eq_runs (word.zip tmask) true, ?_, ?_⟩
  · -- the round trip itself
    rcases h with ⟨hk, hrow, hcol, hr, hc, hc2, hw0, hwa, hlen⟩ |
      ⟨hk, hrow, hcol, hwq, hmask⟩
    · -- placement move
      subst hrow hcol
      obtain ⟨hne, hws, hpwo, hscan, hstrip⟩ := renderWord_facts word tmask hw0 hwa hlen
      have hposf : parsePos (Move.position ⟨some r, some c, kind, word, tmask, score⟩) =
            some (kind, r, c) ∧
          Move.position ⟨some r, some c, kind, word, tmask, score⟩ ≠ ['-', '-'] ∧
          Move.position ⟨some r, some c, kind, word, tmask, score⟩ ≠ [] ∧
          (∀ ch ∈ Move.position ⟨some r, some c, kind, word, tmask, score⟩,
            ch.isWhitespace = false) := by
        rcases hkind : kind with _ | _ | _
        · exact posFacts_across r c hr hc hc2 _ rfl rfl rfl
        · exact posFacts_down r c hr hc hc2 _ rfl rfl rfl
        · exact absurd hkind hk
      obtain ⟨hp1, hp2, hp3, hp4⟩ := hposf
      have htos : Move.toStr ⟨some r, some c, kind, word, tmask, score⟩ =
          renderWord word tmask ++ ' ' ::
            Move.position ⟨some r, some c, kind, word, tmask, score⟩ := by
        simp [Move.toStr, hw0]
      have h2 : Move.toStr ⟨some r, some c, kind, word, tmask, score⟩ ≠ ['-', '-'] := by
        rw [htos]
        intro heq
        have hm : ' ' ∈ renderWord word tmask ++ ' ' ::
            Move.position ⟨some r, some c, kind, word, tmask, score⟩ :=
          List.mem_append.mpr (Or.inr (List.mem_cons_self _ _))
        rw [heq] at hm
        exact absurd hm (by decide)
      have h3 : splitWs (Move.toStr ⟨some r, some c, kind, word, tmask, score⟩) =
          [renderWord word tmask,
           Move.position ⟨some r, some c, kind, word, tmask, score⟩] := by
        rw [htos]
        exact splitWs_two _ _ hne hp3 hws hp4
      have happ := fromStr_place _ _ _ kind r c h2 h3 hp2 hp1 hk hpwo
      refine ⟨⟨some r, some c, kind, word, tmask, 0⟩, ?_, rfl⟩
      rw [happ, hscan, hstrip]
    · -- trade move
      subst hrow hcol hk
      rcases hword : word with _ | ⟨wh, wt⟩
      · have htos : Move.toStr ⟨none, none, .trade, [], tmask, score⟩ = ['-', '-'] := by
          simp [Move.toStr, Move.position, rowStr, colStr]
        rw [htos]
        exact ⟨⟨none, none, .trade, [], [], 0⟩, fromStr_dashes, rfl⟩
      · subst hword
        have hmlen : tmask = List.replicate (wh :: wt).length true := hmask
        subst hmlen
        have hposeq : Move.position
            ⟨none, none, .trade, wh :: wt, List.replicate (wh :: wt).length true, score⟩ =
            ['-', '-'] := by
          simp [Move.position, rowStr, colStr]
        have htos : Move.toStr
            ⟨none, none, .trade, wh :: wt, List.replicate (wh :: wt).length true, score⟩ =
            (wh :: wt) ++ ' ' :: ['-', '-'] := by
          simp only [Move.toStr]
          rw [if_pos (by simp), renderWord_allTrue, hposeq]
        have h2 : Move.toStr
            ⟨none, none, .trade, wh :: wt, List.replicate (wh :: wt).length true, score⟩ ≠
            ['-', '-'] := by
          rw [htos]
          intro heq
          have hm : ' ' ∈ (wh :: wt) ++ ' ' :: ['-', '-'] :=
            List.mem_append.mpr (Or.inr (List.mem_cons_self _ _))
          rw [heq] at hm
          exact absurd hm (by decide)
        have h3 : splitWs (Move.toStr
            ⟨none, none, .trade, wh :: wt, List.replicate (wh :: wt).length true, score⟩) =
            [wh :: wt, ['-', '-']] := by
          rw [htos]
          refine splitWs_two _ _ (List.cons_ne_nil _ _) (by decide) ?_ (by decide)
          intro ch hch
          rcases hwq ch hch with ha | ha
          · exact isAlpha_notWs ch ha
          · subst ha
            decide
        have htw : tradeWordOk (wh :: wt) = true := by
          unfold tradeWordOk
          rw [Bool.or_eq_true]
          left
          rw [List.all_eq_true]
          intro ch hch
          rcases hwq ch hch with ha | ha
          · simp [ha]
          · subst ha
            decide
        have happ := fromStr_tradeWord _ _ h2 h3 htw
        refine ⟨⟨none, none, .trade, wh :: wt,
          List.replicate (wh :: wt).length true, 0⟩, happ, ?_⟩
        rw [htos]
        simp only [Move.toStr]
        rw [if_pos (by simp), renderWord_allTrue]
        rfl
  · intro hw
    simp [Move.toStr, hw]
  · intro hw hk hrow hcol
    subst hw hk hrow hcol
    simp [Move.toStr, Move.position, rowStr, colStr]

theorem isUpper_notWs (c : Char) (h : c.isUpper = true) : c.isWhitespace = false :=
  isAlpha_notWs c (by simp [Char.isAlpha, h])

theorem isUpper_ne_dash (c : Char) (h : c.isUpper = true) : c ≠ '-' := by
  intro he
  subst he
  exact absurd h (by decide)

theorem placeWordOk_facts (w : List Char) (hw : placeWordOk w = true) :
    w ≠ [] ∧ (∀ ch ∈ w, ch.isWhitespace = false) := by
  unfold placeWordOk at hw
  rw [Bool.or_eq_true, Bool.and_eq_true, Bool.and_eq_true] at hw
  rcases hw with ⟨h0, h1⟩ | ⟨h0, h1⟩ <;> rw [List.all_eq_true] at h1
  · refine ⟨by simpa using h0, ?_⟩
    intro ch hch
    have := h1 ch hch
    rw [Bool.or_eq_true, Bool.or_eq_true] at this
    rcases this with (ha | ha) | ha
    · exact isAlpha_notWs ch ha
    · rw [decide_eq_true_eq] at ha
      subst ha
      decide
    · rw [decide_eq_true_eq] at ha
      subst ha
      decide
  · refine ⟨by simpa using h0, ?_⟩
    intro ch hch
    have := h1 ch hch
    rw [decide_eq_true_eq] at this
    subst this
    decide

theorem parsePos_upper_digits (l : Char) (ds : List Char) (hl : l.isUpper = true)
    (hd0 : ds ≠ []) (hda : ∀ ch ∈ ds, ch.isDigit = true) :
    parsePos (l :: ds) = some (.down, (natOfDigits ds : Int) - 1, (l.toNat : Int) - 65) := by
  have hacross : posAcross (l :: ds) = none := by
    unfold posAcross
    rcases hlast : (l :: ds).getLast? with _ | x
    · rfl
    · have hx : x ∈ ds := by
        cases ds with
        | nil => exact absurd rfl hd0
        | cons b t =>
          rw [List.getLast?_cons_cons] at hlast
          exact List.mem_of_getLast?_eq_some hlast
      have : x.isUpper = false := isDigit_notUpper x (hda x hx)
      simp [this]
  have hdown : posDown (l :: ds) =
      some (.down, (natOfDigits ds : Int) - 1, (l.toNat : Int) - 65) := by
    simp only [posDown]
    rw [if_pos ⟨hl, hd0, List.all_eq_true.mpr hda⟩]
  unfold parsePos
  rw [hacross, hdown]

theorem parsePos_digits_upper (l : Char) (ds : List Char) (hl : l.isUpper = true)
    (hd0 : ds ≠ []) (hda : ∀ ch ∈ ds, ch.isDigit = true) :
    parsePos (ds ++ [l]) = some (.across, (natOfDigits ds : Int) - 1, (l.toNat : Int) - 65) := by
  have hacross : posAcross (ds ++ [l]) =
      some (.across, (natOfDigits ds : Int) - 1, (l.toNat : Int) - 65) := by
    simp only [posAcross, List.getLast?_concat, List.dropLast_concat]
    rw [if_pos ⟨hl, hd0, List.all_eq_true.mpr hda⟩]
  unfold parsePos
  rw [hacross]

/-- C10: Move.from_str enforces no bound against any board dimension.  For every
word matching the placement word syntax and every position made of an uppercase
letter and a nonempty digit string in either order (digits of any length),
parsing succeeds and yields row = number - 1 and col = letter - A, so strings
such as FOO A99 parse into moves whose coordinates lie outside every standard
board. -/
theorem c10_fromStr_unbounded (w : List Char) (l : Char) (ds : List Char)
    (hw : placeWordOk w = true) (hl : l.isUpper = true) (hd0 : ds ≠ [])
    (hda : ∀ ch ∈ ds, ch.isDigit = true) :
    Move.fromStr (w ++ ' ' :: l :: ds) =
      .ok ⟨some ((natOfDigits ds : Int) - 1), some ((l.toNat : Int) - 65), .down,
        stripParens w, scanMask w true, 0⟩ ∧
    Move.fromStr (w ++ ' ' :: (ds ++ [l])) =
      .ok ⟨some ((natOfDigits ds : Int) - 1), some ((l.toNat : Int) - 65), .across,
        stripParens w, scanMask w true, 0⟩ := by
  obtain ⟨hw0, hwws⟩ := placeWordOk_facts w hw
  have hdws : ∀ ch ∈ ds, ch.isWhitespace = false :=
    fun ch hch => isDigit_notWs ch (hda ch hch)
  constructor
  · -- DOWN form: letter then digits
    have hpos0 : (l :: ds) ≠ [] := List.cons_ne_nil _ _
    have hposws : ∀ ch ∈ l :: ds, ch.isWhitespace = false := by
      intro ch hch
      rcases List.mem_cons.mp hch with h | h
      · rw [h]
        exact isUpper_notWs l hl
      · exact hdws ch h
    have h2 : w ++ ' ' :: l :: ds ≠ ['-', '-'] := by
      intro heq
      have hm : ' ' ∈ w ++ ' ' :: l :: ds :=
        List.mem_append.mpr (Or.inr (List.mem_cons_self _ _))
      rw [heq] at hm
      exact absurd hm (by decide)
    have h4 : (l :: ds) ≠ ['-', '-'] := by
      intro heq
      have : l = '-' := (List.cons.injEq _ _ _ _).mp heq |>.1
      exact isUpper_ne_dash l hl this
    exact fromStr_place _ _ _ .down _ _ h2
      (splitWs_two w (l :: ds) hw0 hpos0 hwws hposws) h4
      (parsePos_upper_digits l ds hl hd0 hda) (by decide) hw
  · -- ACROSS form: digits then letter
    have hpos0 : ds ++ [l] ≠ [] := by simp
    have hposws : ∀ ch ∈ ds ++ [l], ch.isWhitespace = false := by
      intro ch hch
      rcases List.mem_append.mp hch with h | h
      · exact hdws ch h
      · rw [List.mem_singleton] at h
        rw [h]
        exact isUpper_notWs l hl
    have h2 : w ++ ' ' :: (ds ++ [l]) ≠ ['-', '-'] := by
      intro heq
      have hm : ' ' ∈ w ++ ' ' :: (ds ++ [l]) :=
        List.mem_append.mpr (Or.inr (List.mem_cons_self _ _))
      rw [heq] at hm
      exact absurd hm (by decide)
    have h4 : ds ++ [l] ≠ ['-', '-'] := by
      intro heq
      have h3 : (ds ++ [l]).getLast? = some '-' := by
        rw [heq]
        rfl
      rw [List.getLast?_concat] at h3
      exact isUpper_ne_dash l hl (Option.some.inj h3)
    exact fromStr_place _ _ _ .across _ _ h2
      (splitWs_two w (ds ++ [l]) hw0 hpos0 hwws hposws) h4
      (parsePos_digits_upper l ds hl hd0 hda) (by decide) hw

theorem c8_move_notation_roundtrip_witness :
    (∃ m2, Move.fromStr (Move.toStr ⟨some 2, some 7, .across, ("NITROGEnASE".toList),
        [true, false, false, false, false, true, true, true, false, false, false], 74⟩) =
          .ok m2 ∧
        m2.toStr = Move.toStr ⟨some 2, some 7, .across, ("NITROGEnASE".toList),
          [true, false, false, false, false, true, true, true, false, false, false], 74⟩) ∧
      renderWord ("NITROGEnASE".toList)
          [true, false, false, false, false, true, true, true, false, false, false] =
        joinRuns (maskRuns (("NITROGEnASE".toList).zip
          [true, false, false, false, false, true, true, true, false, false, false])) ∧
      (("NITROGEnASE".toList) = [] →
        Move.toStr ⟨some 2, some 7, .across, ("NITROGEnASE".toList),
          [true, false, false, false, false, true, true, true, false, false, false], 74⟩ =
        Move.position ⟨some 2, some 7, .across, ("NITROGEnASE".toList),
          [true, false, false, false, false, true, true, true, false, false, false], 74⟩) ∧
      (("NITROGEnASE".toList) = [] → MoveKind.across = .trade → (some 2 : Option Int) = none →
        (some 7 : Option Int) = none →
        Move.toStr ⟨some 2, some 7, .across, ("NITROGEnASE".toList),
          [true, false, false, false, false, true, true, true, false, false, false], 74⟩ =
        ['-', '-']) :=
  c8_move_notation_roundtrip ⟨some 2, some 7, .across, ("NITROGEnASE".toList),
    [true, false, false, false, false, true, true, true, false, false, false], 74⟩ 2 7
    (Or.inl (by refine ⟨by decide, rfl, rfl, by decide, by decide, by decide, by decide,
      by decide, by decide⟩))

theorem c10_fromStr_unbounded_witness :
    Move.fromStr (("FOO".toList) ++ ' ' :: 'A' :: ("99".toList)) =
      .ok ⟨some 98, some 0, .down, ("FOO".toList), [true, true, true], 0⟩ :=
  ((c10_fromStr_unbounded ("FOO".toList) 'A' ("99".toList)
    (by decide) (by decide) (by decide) (by decide)).1).trans (congrArg Except.ok (by decide))

/-! ### Board (src/scrabbler/board.py)

Squares carry an optional bonus and an optional placed letter.  The grid is a
total function on coordinates; all theorems about it carry in-bounds
hypotheses, since out-of-range accesses raise in the source. -/

inductive BonusType where
  | bNone
  | bWord
  | bLetter
deriving DecidableEq, Repr

structure Square where
  bonusMult : Int
  bonusType : BonusType
  letter : Option Char
deriving DecidableEq, Repr

def Square.blank : Square := ⟨0, .bNone, none⟩

def lookupAssoc {α : Type} : List (Char × α) → Char → Option α
  | [], _ => none
  | (c, v) :: rest, x => if c = x then some v else lookupAssoc rest x

/-- Insertion sort on characters by codepoint, as Python sorted() on a string
of distinct keys. -/
def insertSortedChar (c : Char) : List Char → List Char
  | [] => [c]
  | x :: xs => if c.toNat ≤ x.toNat then c :: x :: xs else x :: insertSortedChar c xs

def sortChars (l : List Char) : List Char := l.foldr insertSortedChar []

structure Board where
  dim : Nat
  emptyB : Bool
  bingoBonus : Int
  rackSize : Nat
  letterValues : List (Char × Int)
  letterDistribution : List (Char × Nat)
  squares : Nat → Nat → Square

/-- Board.letter_value: variant value for uppercase, 0 for lowercase (blank).
The source raises KeyError on an uppercase letter missing from the table; the
embedding returns 0 there, and every theorem evaluates it only on present
letters. -/
def Board.letterValue (b : Board) (c : Char) : Int :=
  if c.isUpper then (lookupAssoc b.letterValues c).getD 0 else 0

def Board.letterKeys (b : Board) : List Char := sortChars (b.letterValues.map Prod.fst)

/-- Square access at integer coordinates; faithful for in-range nonnegative
coordinates (Python wraps negative indices, which no theorem exercises). -/
def Board.sq (b : Board) (r c : Int) : Square := b.squares r.toNat c.toNat

/-- The word letters of a move zipped with the coordinates its walk covers:
left-to-right for ACROSS, top-to-bottom for DOWN, as zip(word, walk_move(m))
in Board.play. -/
def pairsAcross (r c : Int) : List Char → List (Char × Int × Int)
  | [] => []
  | l :: rest => (l, r, c) :: pairsAcross r (c + 1) rest

def pairsDown (r c : Int) : List Char → List (Char × Int × Int)
  | [] => []
  | l :: rest => (l, r, c) :: pairsDown (r + 1) c rest

def Move.movePairs (m : Move) : List (Char × Int × Int) :=
  match m.kind, m.row, m.col with
  | .across, some r, some c => pairsAcross r c m.word
  | .down, some r, some c => pairsDown r c m.word
  | _, _, _ => []

/-- Does the square at this walk position hold a letter different from the
move letter?  This is the validity check loop of Board.play. -/
def conflictAt (b : Board) (p : Char × Int × Int) : Bool :=
  match (b.sq p.2.1 p.2.2).letter with
  | some x => decide (x ≠ p.1)
  | none => false

/-- Sequential writes of Board.play's second loop. -/
def writeSquares (sq : Nat → Nat → Square) : List (Char × Int × Int) → (Nat → Nat → Square)
  | [] => sq
  | (l, r, c) :: rest =>
    writeSquares
      (fun r2 c2 => if r2 = r.toNat ∧ c2 = c.toNat then
        { sq r2 c2 with letter := some l } else sq r2 c2) rest

/-- Board.play as a state transformer: the new board paired with the optional
InvalidMoveError message.  The check loop runs before any write, so the state
is unchanged on failure, exactly as in the source. -/
def Board.playSt (b : Board) (m : Move) : Board × Option (List Char) :=
  if m.kind = .trade then (b, none)
  else if m.movePairs.any (conflictAt b) then (b, some ("invalid play".toList))
  else ({ b with squares := writeSquares b.squares m.movePairs, emptyB := false }, none)

/-! ### Lemmas on Board.play (claim C4) -/

theorem conflictAt_iff (b : Board) (p : Char × Int × Int) :
    conflictAt b p = true ↔ ∃ x, (b.sq p.2.1 p.2.2).letter = some x ∧ x ≠ p.1 := by
  unfold conflictAt
  rcases h : (b.sq p.2.1 p.2.2).letter with _ | x
  · simp
  · simp [decide_eq_true_eq]

theorem pairsAcross_bounds (w : List Char) (r c : Int) :
    ∀ p ∈ pairsAcross r c w, p.2.1 = r ∧ c ≤ p.2.2 ∧ p.2.2 < c + w.length := by
  induction w generalizing c with
  | nil => simp [pairsAcross]
  | cons l rest ih =>
    intro p hp
    rcases List.mem_cons.mp hp with h | h
    · subst h
      simp
    · obtain ⟨h1, h2, h3⟩ := ih (c + 1) p h
      refine ⟨h1, by omega, by push_cast [List.length_cons] at h3 ⊢; omega⟩

theorem pairsDown_bounds (w : List Char) (r c : Int) :
    ∀ p ∈ pairsDown r c w, p.2.2 = c ∧ r ≤ p.2.1 ∧ p.2.1 < r + w.length := by
  induction w generalizing r with
  | nil => simp [pairsDown]
  | cons l rest ih =>
    intro p hp
    rcases List.mem_cons.mp hp with h | h
    · subst h
      simp
    · obtain ⟨h1, h2, h3⟩ := ih (r + 1) p h
      refine ⟨h1, by omega, by push_cast [List.length_cons] at h3 ⊢; omega⟩

theorem writeSquares_notMem (sq : Nat → Nat → Square) (pairs : List (Char × Int × Int))
    (r c : Nat) (h : ∀ p ∈ pairs, ¬(p.2.1.toNat = r ∧ p.2.2.toNat = c)) :
    writeSquares sq pairs r c = sq r c := by
  induction pairs generalizing sq with
  | nil => rfl
  | cons p rest ih =>
    obtain ⟨l, pr, pc⟩ := p
    simp only [writeSquares]
    rw [ih _ (fun q hq => h q (List.mem_cons_of_mem _ hq))]
    exact if_neg (fun hcon => h (l, pr, pc) (List.mem_cons_self _ _) ⟨hcon.1.symm, hcon.2.symm⟩)

theorem writeSquares_pairsAcross (sq : Nat → Nat → Square) (r c : Int) (w : List Char)
    (hc : 0 ≤ c) :
    ∀ p ∈ pairsAcross r c w,
      (writeSquares sq (pairsAcross r c w)) p.2.1.toNat p.2.2.toNat =
        { sq p.2.1.toNat p.2.2.toNat with letter := some p.1 } := by
  induction w generalizing sq c with
  | nil => simp [pairsAcross]
  | cons l rest ih =>
    intro p hp
    simp only [pairsAcross, writeSquares] at hp ⊢
    have htail : ∀ q ∈ pairsAcross r (c + 1) rest, ¬(q.2.1.toNat = r.toNat ∧ q.2.2.toNat = c.toNat) := by
      intro q hq hqc
      obtain ⟨_, h2, _⟩ := pairsAcross_bounds rest r (c + 1) q hq
      omega
    rcases List.mem_cons.mp hp with h | h
    · subst h
      rw [writeSquares_notMem _ _ _ _ htail]
      simp
    · have hne : ¬(p.2.1.toNat = r.toNat ∧ p.2.2.toNat = c.toNat) := htail p h
      have hstep := ih (fun r2 c2 => if r2 = r.toNat ∧ c2 = c.toNat then
        { sq r2 c2 with letter := some l } else sq r2 c2) (c + 1) (by omega) p h
      rw [hstep]
      simp only [if_neg hne]

theorem writeSquares_pairsDown (sq : Nat → Nat → Square) (r c : Int) (w : List Char)
    (hr : 0 ≤ r) :
    ∀ p ∈ pairsDown r c w,
      (writeSquares sq (pairsDown r c w)) p.2.1.toNat p.2.2.toNat =
        { sq p.2.1.toNat p.2.2.toNat with letter := some p.1 } := by
  induction w generalizing sq r with
  | nil => simp [pairsDown]
  | cons l rest ih =>
    intro p hp
    simp only [pairsDown, writeSquares] at hp ⊢
    have htail : ∀ q ∈ pairsDown (r + 1) c rest, ¬(q.2.1.toNat = r.toNat ∧ q.2.2.toNat = c.toNat) := by
      intro q hq hqc
      obtain ⟨_, h2, _⟩ := pairsDown_bounds rest (r + 1) c q hq
      omega
    rcases List.mem_cons.mp hp with h | h
    · subst h
      rw [writeSquares_notMem _ _ _ _ htail]
      simp
    · have hne : ¬(p.2.1.toNat = r.toNat ∧ p.2.2.toNat = c.toNat) := htail p h
      have hstep := ih (fun r2 c2 => if r2 = r.toNat ∧ c2 = c.toNat then
        { sq r2 c2 with letter := some l } else sq r2 c2) (r + 1) (by omega) p h
      rw [hstep]
      simp only [if_neg hne]

/-- C4: Board.play(m) is a no-op for a TRADE move; otherwise, for any play
whose walk stays on the board (ACROSS: row in range and col + len ≤ dim;
DOWN: col in range and row + len ≤ dim), it raises INVALID_MOVE if and only
if some square covered by the walk already holds a letter differing from the
move letter at that position; it is atomic (on failure the board is
unchanged); and on success every covered square holds the move's letter and
the board's empty flag becomes false. -/
theorem c4_board_play_spec (b : Board) (m : Move) :
    (m.kind = .trade → b.playSt m = (b, none)) ∧
    (∀ r c : Int, m.kind ≠ .trade → m.row = some r → m.col = some c →
      0 ≤ r → 0 ≤ c →
      (m.kind = .across → r < (b.dim : Int) ∧ c + m.word.length ≤ (b.dim : Int)) →
      (m.kind = .down → c < (b.dim : Int) ∧ r + m.word.length ≤ (b.dim : Int)) →
      (((b.playSt m).2 ≠ none) ↔
        ∃ p ∈ m.movePairs, ∃ x, (b.sq p.2.1 p.2.2).letter = some x ∧ x ≠ p.1) ∧
      ((b.playSt m).2 ≠ none → (b.playSt m).1 = b) ∧
      ((b.playSt m).2 = none →
        (∀ p ∈ m.movePairs, ((b.playSt m).1.sq p.2.1 p.2.2).letter = some p.1) ∧
        (b.playSt m).1.emptyB = false)) := by
  constructor
  · intro hk
    unfold Board.playSt
    rw [if_pos hk]
  · intro r c hk hrow hcol hr hc _ _
    unfold Board.playSt
    rw [if_neg hk]
    by_cases hany : m.movePairs.any (conflictAt b) = true
    · rw [if_pos hany]
      refine ⟨?_, fun _ => rfl, fun hnone => absurd hnone (by simp)⟩
      simp only [ne_eq, Option.some_ne_none, not_false_eq_true, true_iff]
      obtain ⟨p, hp, hcf⟩ := List.any_eq_true.mp hany
      exact ⟨p, hp, (conflictAt_iff b p).mp hcf⟩
    · rw [if_neg hany]
      refine ⟨?_, fun habs => absurd rfl habs, fun _ => ⟨?_, rfl⟩⟩
      · simp only [ne_eq, not_true_eq_false, false_iff]
        rintro ⟨p, hp, hx⟩
        exact hany (List.any_eq_true.mpr ⟨p, hp, (conflictAt_iff b p).mpr hx⟩)
      · intro p hp
        show (writeSquares b.squares m.movePairs p.2.1.toNat p.2.2.toNat).letter = some p.1
        rcases hkind : m.kind with _ | _ | _
        · have hmp : m.movePairs = pairsAcross r c m.word := by
            unfold Move.movePairs
            rw [hkind, hrow, hcol]
          rw [hmp] at hp ⊢
          rw [writeSquares_pairsAcross b.squares r c m.word hc p hp]
        · have hmp : m.movePairs = pairsDown r c m.word := by
            unfold Move.movePairs
            rw [hkind, hrow, hcol]
          rw [hmp] at hp ⊢
          rw [writeSquares_pairsDown b.squares r c m.word hr p hp]
        · exact absurd hkind hk

/-- Empty 5x5 test board used by concrete witnesses. -/
def testBoard5 : Board :=
  ⟨5, true, 50, 7, [('D', 2), ('F', 4), ('O', 1)], [('D', 4), ('F', 4), ('O', 8), ('?', 2)],
    fun _ _ => Square.blank⟩

def fooMove : Move := ⟨some 1, some 0, .across, ("FOO".toList), [true, true, true], 0⟩

theorem c4_board_play_spec_witness :
    ((testBoard5.playSt fooMove).1.sq 1 0).letter = some 'F' ∧
      (testBoard5.playSt fooMove).1.emptyB = false := by
  have h := (c4_board_play_spec testBoard5 fooMove).2 1 0 (by decide) rfl rfl
    (by decide) (by decide) (by decide) (by decide)
  have h2 := h.2.2 (by decide)
  exact ⟨h2.1 ('F', 1, 0) (by decide), h2.2⟩

/-! ### Cross fragments, cross checks, cross scores, anchors
(Board.updown_fragments, Board.cross_checks, Board.cross_score,
Board.is_anchor in src/scrabbler/board.py) -/

/-- The contiguous letters directly above a square, top to bottom: the `up`
fragment of Board.updown_fragments (scanning upward and prepending). -/
def Board.upFrag (b : Board) (c : Nat) : Nat → List Char
  | 0 => []
  | r + 1 =>
    match (b.squares r c).letter with
    | none => []
    | some l => b.upFrag c r ++ [l]

/-- Collect letters down a column until the first empty square. -/
def takeLetters (b : Board) (c : Nat) : List Nat → List Char
  | [] => []
  | i :: rest =>
    match (b.squares i c).letter with
    | none => []
    | some l => l :: takeLetters b c rest

/-- The contiguous letters directly below a square, top to bottom: the `down`
fragment of Board.updown_fragments (range(row+1, dim) with break). -/
def Board.downFrag (b : Board) (r c : Nat) : List Char :=
  takeLetters b c (List.range' (r + 1) (b.dim - (r + 1)))

def Board.updownFragments (b : Board) (r c : Nat) : List Char × List Char :=
  (b.upFrag c r, b.downFrag r c)

/-- Board.cross_checks: letters that can be placed at (row, col) to form valid
down words. -/
def Board.crossChecks (b : Board) (lex : Lex) (r c : Nat) : List Char :=
  if (b.squares r c).letter.isSome then []
  else
    let up := b.upFrag c r
    let down := b.downFrag r c
    if up = [] ∧ down = [] then b.letterKeys
    else
      match lex.descend (up.map Char.toUpper) with
      | none => []
      | some t => b.letterKeys.filter (fun l => t.existsW (l :: down.map Char.toUpper))

/-- Board.cross_score: value of the adjacent up/down fragments, None when both
are empty, with the square's word bonus applied. -/
def Board.crossScore (b : Board) (r c : Nat) : Option Int :=
  let up := b.upFrag c r
  let down := b.downFrag r c
  if up = [] ∧ down = [] then none
  else
    let base := ((up ++ down).map b.letterValue).sum
    some (if (b.squares r c).bonusType = .bWord then base * (b.squares r c).bonusMult else base)

/-- Board.is_anchor: an empty square orthogonally adjacent to a filled square,
with the source's bound guards. -/
def Board.isAnchor (b : Board) (r c : Nat) : Bool :=
  if (b.squares r c).letter.isSome then false
  else
    (decide (1 ≤ r) && (b.squares (r - 1) c).letter.isSome) ||
    (decide (1 ≤ c) && (b.squares r (c - 1)).letter.isSome) ||
    (decide (r + 1 < b.dim) && (b.squares (r + 1) c).letter.isSome) ||
    (decide (c + 1 < b.dim) && (b.squares r (c + 1)).letter.isSome)

/-- Board.alltiles: the initial bag, letters in sorted order repeated by their
distribution count. -/
def Board.allTiles (b : Board) : List Char :=
  (sortChars (b.letterDistribution.map Prod.fst)).flatMap
    (fun ch => List.replicate ((lookupAssoc b.letterDistribution ch).getD 0) ch)

theorem mem_insertSortedChar (x c : Char) (l : List Char) :
    x ∈ insertSortedChar c l ↔ x = c ∨ x ∈ l := by
  induction l with
  | nil => simp [insertSortedChar]
  | cons y ys ih =>
    simp only [insertSortedChar]
    split
    · simp
    · simp only [List.mem_cons, ih]
      tauto

theorem mem_sortChars (x : Char) (l : List Char) : x ∈ sortChars l ↔ x ∈ l := by
  induction l with
  | nil => simp [sortChars]
  | cons y ys ih =>
    simp only [sortChars, List.foldr_cons] at ih ⊢
    rw [mem_insertSortedChar, ih, List.mem_cons]

/-- C6: cross_checks.  For a filled square the result is empty; for an empty
square with empty up and down fragments it is exactly the sorted key list of
letter_values (membership matching the keys); otherwise a candidate letter x
from the keys is in the result iff descending the lexicon by the uppercased up
fragment succeeds and x followed by the uppercased down fragment exists in that
subtree. -/
theorem c6_cross_checks_spec (b : Board) (lex : Lex) (r c : Nat) :
    ((b.squares r c).letter.isSome = true → b.crossChecks lex r c = []) ∧
    ((b.squares r c).letter = none → b.upFrag c r = [] → b.downFrag r c = [] →
      b.crossChecks lex r c = b.letterKeys ∧
      (∀ x, x ∈ b.letterKeys ↔ x ∈ b.letterValues.map Prod.fst)) ∧
    ((b.squares r c).letter = none → ¬(b.upFrag c r = [] ∧ b.downFrag r c = []) →
      ∀ x, x ∈ b.crossChecks lex r c ↔
        x ∈ b.letterValues.map Prod.fst ∧
        ∃ t, lex.descend ((b.upFrag c r).map Char.toUpper) = some t ∧
          t.existsW (x :: (b.downFrag r c).map Char.toUpper) = true) := by
  refine ⟨?_, ?_, ?_⟩
  · intro hfull
    unfold Board.crossChecks
    rw [if_pos hfull]
  · intro hempty hup hdown
    unfold Board.crossChecks
    rw [if_neg (by simp [hempty]), if_pos ⟨hup, hdown⟩]
    exact ⟨rfl, fun x => mem_sortChars x _⟩
  · intro hempty hfrag x
    unfold Board.crossChecks
    rw [if_neg (by simp [hempty]), if_neg hfrag]
    rcases hdesc : lex.descend ((b.upFrag c r).map Char.toUpper) with _ | t
    · simp
    · simp only [List.mem_filter, mem_sortChars, Board.letterKeys]
      constructor
      · rintro ⟨hmem, hex⟩
        exact ⟨hmem, t, rfl, hex⟩
      · rintro ⟨hmem, t2, ht2, hex⟩
        rw [Option.some.injEq] at ht2
        subst ht2
        exact ⟨hmem, hex⟩

def crossBoard : Board :=
  ⟨4, false, 50, 7, [('G', 2), ('O', 1), ('S', 1)], [],
    fun r c => if r = 1 ∧ c = 1 then ⟨0, .bNone, some 'S'⟩ else Square.blank⟩

def crossLex : Lex := lexOf [("SO".toList)]

theorem c6_cross_checks_spec_witness :
    'O' ∈ crossBoard.letterValues.map Prod.fst ∧
      ∃ t, crossLex.descend ((crossBoard.upFrag 1 2).map Char.toUpper) = some t ∧
        t.existsW ('O' :: (crossBoard.downFrag 2 1).map Char.toUpper) = true :=
  ((c6_cross_checks_spec crossBoard crossLex 2 1).2.2 (by decide) (by decide) 'O').mp (by decide)

/-! ### The move generator (Board.valid_moves_across / valid_moves)

The Python search mutates a rack list and appends to a move list; here both
are threaded explicitly and each function returns the moves it produced with
the rack state at exit.  list.remove drops the first occurrence, append adds
at the end.  The per-row cross-check and cross-score tables are passed as
functions of the column, the pure equivalent of the precomputed row lists.
extend_right recurses only at col+1 under a col < dim guard, so fuel dim+1
never runs out when entered at a column at most dim. -/

def removeFirst : List Char → Char → List Char
  | [], _ => []
  | x :: xs, c => if x = c then xs else x :: removeFirst xs c

/-- Closure context of the nested functions in valid_moves_across. -/
structure GenCtx where
  b : Board
  row : Nat
  anchor : Nat
  rowcross : Nat → List Char
  rowscore : Nat → Option Int

/-- One step of score_word's loop: the running (base, mult, extra, played)
state updated by the letter at column i. -/
def scoreStep (b : Board) (row : Nat) (rowscore : Nat → Option Int) (i : Nat) (l : Char)
    (st : Int × Int × Int × Nat) : Int × Int × Int × Nat :=
  let base := st.1
  let mult := st.2.1
  let extra := st.2.2.1
  let played := st.2.2.2
  let v := b.letterValue l
  if (b.squares row i).letter = none then
    let v2 := if (b.squares row i).bonusType = .bLetter then v * (b.squares row i).bonusMult else v
    let extra2 := match rowscore i with
      | none => extra
      | some cs => extra + cs + v2
    let mult2 := if (b.squares row i).bonusType = .bWord then mult * (b.squares row i).bonusMult else mult
    (base + v2, mult2, extra2, played + 1)
  else (base + v, mult, extra, played)

def scoreLoop (b : Board) (row : Nat) (rowscore : Nat → Option Int) :
    Nat → List Char → (Int × Int × Int × Nat) → Int × Int × Int × Nat
  | _, [], st => st
  | i, l :: rest, st => scoreLoop b row rowscore (i + 1) rest (scoreStep b row rowscore i l st)

/-- score_word(word, col): iterate the columns col-|w| .. col-1, then add the
bingo bonus into the extra term when the whole rack was played. -/
def scoreWord (b : Board) (row : Nat) (rowscore : Nat → Option Int)
    (word : List Char) (col : Nat) : Int :=
  let st := scoreLoop b row rowscore (col - word.length) word (0, 1, 0, 0)
  let extra2 := if st.2.2.2 = b.rackSize then st.2.2.1 + b.bingoBonus else st.2.2.1
  st.1 * st.2.1 + extra2

/-- extend_right: follow forced letters on occupied squares, emit a move when
past the anchor on a final node, and extend through the cross-checked edges of
the node using rack tiles and blanks — the for-letter loop is a fold over the
edge labels threading the (moves, rack) state, trying the concrete tile first
and then a blank, restoring the rack after each branch. -/
def extendRight (g : GenCtx) : Nat → List Char → Option Lex → Nat → List Char →
    List Move × List Char
  | 0, _, _, _, rack => ([], rack)
  | fuel + 1, word, tree, col, rack =>
    match tree with
    | none => ([], rack)
    | some t =>
      if col < g.b.dim ∧ (g.b.squares g.row col).letter ≠ none then
        let l := ((g.b.squares g.row col).letter).getD 'A'
        match t.step l.toUpper with
        | none => ([], rack)
        | some t2 => extendRight g fuel (word ++ [l]) (some t2) (col + 1) rack
      else
        let emitted : List Move :=
          if col > g.anchor ∧ t.final then
            [⟨some (g.row : Int), some (((col - word.length : Nat) : Int)), .across, word,
              List.replicate word.length true,
              scoreWord g.b g.row g.rowscore word col⟩]
          else []
        if col < g.b.dim then
          let lr := t.nextL.foldl (fun acc l =>
            if l ∈ g.rowcross col then
              let br1 : List Move × List Char :=
                if l ∈ acc.2 then
                  let ra := extendRight g fuel (word ++ [l]) (t.step l) (col + 1)
                    (removeFirst acc.2 l)
                  (ra.1, ra.2 ++ [l])
                else ([], acc.2)
              let br2 : List Move × List Char :=
                if '?' ∈ br1.2 then
                  let rb := extendRight g fuel (word ++ [l.toLower]) (t.step l) (col + 1)
                    (removeFirst br1.2 '?')
                  (rb.1, rb.2 ++ ['?'])
                else ([], br1.2)
              (acc.1 ++ br1.1 ++ br2.1, br2.2)
            else acc) ([], rack)
          (emitted ++ lr.1, lr.2)
        else (emitted, rack)

/-- search: try to right-extend the current left part, then while the limit
allows, extend the left part by rack letters or blanks over the node's edges,
again folding the (moves, rack) state through the edge labels.  The stepped
subtree always exists because the letter comes from t.nextL, so getD never
takes its default. -/
def leftSearch (g : GenCtx) (fuel : Nat) : Nat → Lex → List Char → List Char →
    List Move × List Char
  | 0, t, word, rack => extendRight g fuel word (some t) g.anchor rack
  | lim + 1, t, word, rack =>
    let er := extendRight g fuel word (some t) g.anchor rack
    let lp := t.nextL.foldl (fun acc l =>
      let br1 : List Move × List Char :=
        if l ∈ acc.2 then
          let ra := leftSearch g fuel lim ((t.step l).getD Lex.empty) (word ++ [l])
            (removeFirst acc.2 l)
          (ra.1, ra.2 ++ [l])
        else ([], acc.2)
      let br2 : List Move × List Char :=
        if '?' ∈ br1.2 then
          let rb := leftSearch g fuel lim ((t.step l).getD Lex.empty) (word ++ [l.toLower])
            (removeFirst br1.2 '?')
          (rb.1, rb.2 ++ ['?'])
        else ([], br1.2)
      (acc.1 ++ br1.1 ++ br2.1, br2.2)) ([], er.2)
    (er.1 ++ lp.1, lp.2)

/-- The fixed left part: the letters on the squares strictly between the
previous anchor and this anchor.  In reachable states every square in this
range is filled (an empty one would itself be an earlier anchor); the
embedding drops absent letters, where the source would raise. -/
def fixedLeft (b : Board) (row : Nat) (pa : Int) (anchor : Nat) : List Char :=
  (List.range' ((pa + 1).toNat) (anchor - (pa + 1).toNat)).filterMap
    (fun i => (b.squares row i).letter)

/-- Anchor columns for a row: the center square alone on an empty board, else
every anchor square of the row. -/
def rowAnchors (b : Board) (row : Nat) : List Nat :=
  if b.emptyB then
    (if row = b.dim / 2 then [b.dim / 2] else [])
  else (List.range b.dim).filter (fun col => b.isAnchor row col)

/-- The per-anchor loop of valid_moves_across, threading prevanchor. -/
def anchorLoop (b : Board) (lex : Lex) (row : Nat) (rowcross : Nat → List Char)
    (rowscore : Nat → Option Int) : List Nat → Int → List Char → List Move × List Char
  | [], _, rack => ([], rack)
  | anchor :: restA, pa, rack =>
    let g : GenCtx := ⟨b, row, anchor, rowcross, rowscore⟩
    let first : List Move × List Char :=
      if anchor = 0 ∨ (b.squares row (anchor - 1)).letter ≠ none then
        let word := fixedLeft b row pa anchor
        extendRight g (b.dim + 1) word (lex.descend (word.map Char.toUpper)) anchor rack
      else
        leftSearch g (b.dim + 1) ((anchor - pa - 1 : Int)).toNat lex [] rack
    let rest := anchorLoop b lex row rowcross rowscore restA (anchor : Int) first.2
    (first.1 ++ rest.1, rest.2)

/-- The per-row loop of valid_moves_across. -/
def rowLoop (b : Board) (lex : Lex) : List Nat → List Char → List Move × List Char
  | [], rack => ([], rack)
  | row :: restR, rack =>
    let first := anchorLoop b lex row
      (fun col => b.crossChecks lex row col) (fun col => b.crossScore row col)
      (rowAnchors b row) (-1) rack
    let rest := rowLoop b lex restR first.2
    (first.1 ++ rest.1, rest.2)

/-- Board.valid_moves_across.  The incoming rack is copied in the source; the
threaded copy is returned so its preservation can be stated. -/
def Board.validMovesAcross (b : Board) (rack : List Char) (lex : Lex) :
    List Move × List Char :=
  rowLoop b lex (List.range b.dim) rack

def flipSquares (b : Board) : Board := { b with squares := fun r c => b.squares c r }

/-- Board.valid_moves: across moves, then the across search on the transposed
grid with row/col swapped and kind set to DOWN; the saved squares are
reinstated afterwards (the finally block), and that restored board is
returned alongside the moves. -/
def Board.validMoves (b : Board) (rack : List Char) (lex : Lex) :
    List Move × Board :=
  let acrossMoves := (b.validMovesAcross rack lex).1
  let saved := b.squares
  let flipped := flipSquares b
  let downMoves := (flipped.validMovesAcross rack lex).1.map
    (fun m => { m with row := m.col, col := m.row, kind := MoveKind.down })
  (acrossMoves ++ downMoves, { flipped with squares := saved })

/-! ### Claim C1: the generated tile mask

On a board holding FOO with rack D and lexicon {FOO, FOOD}, the generator
emits FOOD with an all-true tile mask: the Move constructor is called without
a tmask, so every position — including the three pre-existing letters — is
marked newly placed, and Move.tiles returns letters that are not in the rack.
This contradicts the documented tmask semantics in move.py and the
parenthesized move strings expected by test_game.py. -/

def c1Board : Board :=
  (Board.playSt ⟨5, true, 50, 7, [('D', 2), ('F', 4), ('O', 1)], [],
      fun _ _ => Square.blank⟩
    ⟨some 2, some 0, .across, ("FOO".toList), [true, true, true], 0⟩).1

def c1Lex : Lex := lexOf [("FOO".toList), ("FOOD".toList)]

/-- C1 (failing-input evaluation): the unique move generated for rack D on the
FOO board is FOOD with tile mask all true, whose tile-mask-true letters F, O,
O are not drawn from the rack — refuting soundness condition (a) as stated. -/
theorem c1_generator_tilemask_eval :
    (c1Board.validMoves ("D".toList) c1Lex).1 =
      [⟨some 2, some 0, .across, ("FOOD".toList), [true, true, true, true], 8⟩] ∧
    Move.tiles ⟨some 2, some 0, .across, ("FOOD".toList), [true, true, true, true], 8⟩ =
      ("FOOD".toList) ∧
    ('F' ∉ ("D".toList)) := by
  decide

/-! ### Rack preservation through the search (claim C9) -/

theorem removeFirst_perm (l : List Char) (c : Char) (h : c ∈ l) :
    (removeFirst l c ++ [c]).Perm l := by
  induction l with
  | nil => simp at h
  | cons x xs ih =>
    simp only [removeFirst]
    by_cases hx : x = c
    · subst hx
      rw [if_pos rfl]
      exact List.perm_append_singleton x xs
    · rw [if_neg hx]
      rcases List.mem_cons.mp h with h1 | h1
      · exact absurd h1.symm hx
      · exact List.Perm.trans (by simpa using (ih h1).cons x) (List.Perm.refl _)

theorem ms_restore (rack out : List Char) (c : Char) (hmem : c ∈ rack)
    (hout : (out : Multiset Char) = ↑(removeFirst rack c)) :
    ((out ++ [c] : List Char) : Multiset Char) = ↑rack := by
  have hperm : out.Perm (removeFirst rack c) := Multiset.coe_eq_coe.mp hout
  exact Multiset.coe_eq_coe.mpr
    ((hperm.append_right [c]).trans (removeFirst_perm rack c hmem))

/-- Invariant preservation through a left fold. -/
theorem foldl_inv {α β : Type} (letters : List α) (f : β → α → β) (pr : β → Prop)
    (hstep : ∀ acc a, a ∈ letters → pr acc → pr (f acc a)) :
    ∀ acc, pr acc → pr (letters.foldl f acc) := by
  induction letters with
  | nil => intro acc h; simpa using h
  | cons a rest ih =>
    intro acc h
    rw [List.foldl_cons]
    exact ih (fun acc2 b hb hacc2 => hstep acc2 b (by simp [hb]) hacc2) _
      (hstep acc a (by simp) h)

theorem extendRight_rack (g : GenCtx) : ∀ (fuel : Nat) (word : List Char)
    (tree : Option Lex) (col : Nat) (rack : List Char),
    (((extendRight g fuel word tree col rack).2 : List Char) : Multiset Char) = ↑rack := by
  intro fuel
  induction fuel with
  | zero => intro word tree col rack; rfl
  | succ fuel ih =>
    intro word tree col rack
    rcases tree with _ | t
    · rfl
    · rw [extendRight]
      by_cases h1 : col < g.b.dim ∧ (g.b.squares g.row col).letter ≠ none
      · rw [if_pos h1]
        simp only []
        rcases hstep : Lex.step t (((g.b.squares g.row col).letter).getD 'A').toUpper
          with _ | t2
        · rfl
        · exact ih _ _ _ _
      · rw [if_neg h1]
        by_cases h2 : col < g.b.dim
        · rw [if_pos h2]
          simp only []
          have hstep : ∀ (acc : List Move × List Char) (l : Char), l ∈ t.nextL →
              ((acc.2 : List Char) : Multiset Char) = ↑rack →
              (((if l ∈ g.rowcross col then
                  let br1 : List Move × List Char :=
                    if l ∈ acc.2 then
                      let ra := extendRight g fuel (word ++ [l]) (t.step l) (col + 1)
                        (removeFirst acc.2 l)
                      (ra.1, ra.2 ++ [l])
                    else ([], acc.2)
                  let br2 : List Move × List Char :=
                    if '?' ∈ br1.2 then
                      let rb := extendRight g fuel (word ++ [l.toLower]) (t.step l) (col + 1)
                        (removeFirst br1.2 '?')
                      (rb.1, rb.2 ++ ['?'])
                    else ([], br1.2)
                  (acc.1 ++ br1.1 ++ br2.1, br2.2)
                else acc).2 : List Char) : Multiset Char) = ↑rack := by
            intro acc l _ hacc
            by_cases hcr : l ∈ g.rowcross col
            · rw [if_pos hcr]
              simp only []
              by_cases hl : l ∈ acc.2
              · rw [if_pos hl]
                simp only []
                have hbr1 : (((extendRight g fuel (word ++ [l]) (Lex.step t l) (col + 1)
                    (removeFirst acc.2 l)).2 ++ [l] : List Char) : Multiset Char) = ↑acc.2 :=
                  ms_restore acc.2 _ l hl (ih _ _ _ _)
                by_cases hq : '?' ∈ (extendRight g fuel (word ++ [l]) (Lex.step t l) (col + 1)
                    (removeFirst acc.2 l)).2 ++ [l]
                · rw [if_pos hq]
                  simp only []
                  rw [ms_restore _ _ '?' hq (ih _ _ _ _), hbr1, hacc]
                · rw [if_neg hq]
                  simp only []
                  rw [hbr1, hacc]
              · rw [if_neg hl]
                simp only []
                by_cases hq : '?' ∈ acc.2
                · rw [if_pos hq]
                  simp only []
                  rw [ms_restore _ _ '?' hq (ih _ _ _ _), hacc]
                · rw [if_neg hq]
                  simpa using hacc
            · rw [if_neg hcr]
              exact hacc
          exact foldl_inv t.nextL _
            (fun acc => ((acc.2 : List Char) : Multiset Char) = ↑rack) hstep ([], rack) rfl
        · rw [if_neg h2]

theorem leftSearch_rack (g : GenCtx) (fuel : Nat) : ∀ (limit : Nat) (t : Lex)
    (word rack : List Char),
    (((leftSearch g fuel limit t word rack).2 : List Char) : Multiset Char) = ↑rack := by
  intro limit
  induction limit with
  | zero => intro t word rack; exact extendRight_rack g fuel word (some t) g.anchor rack
  | succ lim ih =>
    intro t word rack
    rw [leftSearch]
    simp only []
    have her : (((extendRight g fuel word (some t) g.anchor rack).2 : List Char) :
        Multiset Char) = ↑rack := extendRight_rack g fuel word (some t) g.anchor rack
    have hstep : ∀ (acc : List Move × List Char) (l : Char), l ∈ t.nextL →
        ((acc.2 : List Char) : Multiset Char) = ↑rack →
        (((let br1 : List Move × List Char :=
              if l ∈ acc.2 then
                let ra := leftSearch g fuel lim ((t.step l).getD Lex.empty) (word ++ [l])
                  (removeFirst acc.2 l)
                (ra.1, ra.2 ++ [l])
              else ([], acc.2)
            let br2 : List Move × List Char :=
              if '?' ∈ br1.2 then
                let rb := leftSearch g fuel lim ((t.step l).getD Lex.empty) (word ++ [l.toLower])
                  (removeFirst br1.2 '?')
                (rb.1, rb.2 ++ ['?'])
              else ([], br1.2)
            (acc.1 ++ br1.1 ++ br2.1, br2.2)).2 : List Char) : Multiset Char) = ↑rack := by
      intro acc l _ hacc
      by_cases hl : l ∈ acc.2
      · rw [if_pos hl]
        simp only []
        have hbr1 : (((leftSearch g fuel lim ((t.step l).getD Lex.empty) (word ++ [l])
            (removeFirst acc.2 l)).2 ++ [l] : List Char) : Multiset Char) = ↑acc.2 :=
          ms_restore acc.2 _ l hl (ih _ _ _)
        by_cases hq : '?' ∈ (leftSearch g fuel lim ((t.step l).getD Lex.empty) (word ++ [l])
            (removeFirst acc.2 l)).2 ++ [l]
        · rw [if_pos hq]
          simp only []
          rw [ms_restore _ _ '?' hq (ih _ _ _), hbr1, hacc]
        · rw [if_neg hq]
          simp only []
          rw [hbr1, hacc]
      · rw [if_neg hl]
        simp only []
        by_cases hq : '?' ∈ acc.2
        · rw [if_pos hq]
          simp only []
          rw [ms_restore _ _ '?' hq (ih _ _ _), hacc]
        · rw [if_neg hq]
          simpa using hacc
    exact foldl_inv t.nextL _
      (fun acc => ((acc.2 : List Char) : Multiset Char) = ↑rack) hstep
      ([], (extendRight g fuel word (some t) g.anchor rack).2) her

theorem anchorLoop_rack (b : Board) (lex : Lex) (row : Nat) (rowcross : Nat → List Char)
    (rowscore : Nat → Option Int) : ∀ (anchors : List Nat) (pa : Int) (rack : List Char),
    (((anchorLoop b lex row rowcross rowscore anchors pa rack).2 : List Char) :
      Multiset Char) = ↑rack := by
  intro anchors
  induction anchors with
  | nil => intro pa rack; rfl
  | cons anchor restA ih =>
    intro pa rack
    rw [anchorLoop]
    simp only []
    by_cases hfix : anchor = 0 ∨ (b.squares row (anchor - 1)).letter ≠ none
    · rw [if_pos hfix]
      rw [ih _ _]
      exact extendRight_rack _ _ _ _ _ _
    · rw [if_neg hfix]
      rw [ih _ _]
      exact leftSearch_rack _ _ _ _ _ _

theorem rowLoop_rack (b : Board) (lex : Lex) : ∀ (rows : List Nat) (rack : List Char),
    (((rowLoop b lex rows rack).2 : List Char) : Multiset Char) = ↑rack := by
  intro rows
  induction rows with
  | nil => intro rack; rfl
  | cons row restR ih =>
    intro rack
    rw [rowLoop]
    simp only []
    rw [ih _]
    exact anchorLoop_rack _ _ _ _ _ _ _ _

/-- C9: the generator has no net effect on its inputs.  The rack threaded
through the full across search (Python's transient remove/append stack
discipline) ends multiset-equal to its input, and valid_moves hands back the
board with its saved square grid reinstated after the transposed DOWN pass —
in the source the restore runs in a finally block, so it also happens when
generation raises; the embedded generator is total, which makes that clause
the normal return path here. -/
theorem c9_generator_frame (b : Board) (rack : List Char) (lex : Lex) :
    (((b.validMovesAcross rack lex).2 : List Char) : Multiset Char) = ↑rack ∧
      (b.validMoves rack lex).2 = b :=
  ⟨rowLoop_rack b lex (List.range b.dim) rack, rfl⟩

/-! ### The spec's scoring formula (claim C2)

Modelled from the spec's scoring pseudocode: iterate the word's columns
accumulating base, base_mult, extra and played; letter bonuses and word
multipliers apply only on newly placed (empty) squares; a present cross_score
contributes cross_score plus the letter-bonus-adjusted value; the total is
base * base_mult + extra, plus bingo_bonus exactly when played equals
rack_size. -/

def specScoreStep (b : Board) (r i : Nat) (l : Char)
    (st : Int × Int × Int × Nat) : Int × Int × Int × Nat :=
  let base := st.1
  let mult := st.2.1
  let extra := st.2.2.1
  let played := st.2.2.2
  let v := b.letterValue l
  if (b.squares r i).letter = none then
    let v2 := if (b.squares r i).bonusType = .bLetter then v * (b.squares r i).bonusMult else v
    let extra2 := match b.crossScore r i with
      | none => extra
      | some cs => extra + cs + v2
    let mult2 := if (b.squares r i).bonusType = .bWord then mult * (b.squares r i).bonusMult else mult
    (base + v2, mult2, extra2, played + 1)
  else (base + v, mult, extra, played)

def specScoreLoop (b : Board) (r : Nat) :
    Nat → List Char → (Int × Int × Int × Nat) → Int × Int × Int × Nat
  | _, [], st => st
  | i, l :: rest, st => specScoreLoop b r (i + 1) rest (specScoreStep b r i l st)

def specScoreWord (b : Board) (r : Nat) (w : List Char) (c : Nat) : Int :=
  let st := specScoreLoop b r (c - w.length) w (0, 1, 0, 0)
  let score := st.1 * st.2.1 + st.2.2.1
  if st.2.2.2 = b.rackSize then score + b.bingoBonus else score

theorem scoreLoop_eq_spec (b : Board) (r : Nat) : ∀ (w : List Char) (i : Nat)
    (st : Int × Int × Int × Nat),
    scoreLoop b r (fun j => b.crossScore r j) i w st = specScoreLoop b r i w st := by
  intro w
  induction w with
  | nil => intro i st; rfl
  | cons l rest ih =>
    intro i st
    rw [scoreLoop, specScoreLoop]
    rw [ih]
    rfl

/-- The implementation's score_word with the per-row cross-score table equals
the spec's scoring formula: the only difference is whether the bingo bonus is
folded into the extra term before or after the multiplication. -/
theorem scoreWord_eq_spec (b : Board) (r : Nat) (w : List Char) (c : Nat) :
    scoreWord b r (fun j => b.crossScore r j) w c = specScoreWord b r w c := by
  unfold scoreWord specScoreWord
  rw [scoreLoop_eq_spec]
  simp only []
  split
  · rw [add_assoc]
  · rfl

/-- Shape of every move emitted by one across pass: an ACROSS move on this
row whose score is score_word of its word at its end column. -/
def rowShape (b : Board) (row : Nat) (rowscore : Nat → Option Int) (m : Move) : Prop :=
  m.kind = .across ∧ m.row = some (row : Int) ∧
    ∃ endc : Nat, m.word.length ≤ endc ∧
      m.col = some (((endc - m.word.length : Nat) : Int)) ∧
      m.score = scoreWord b row rowscore m.word endc

theorem extendRight_shape (g : GenCtx) : ∀ (fuel : Nat) (word : List Char)
    (tree : Option Lex) (col : Nat) (rack : List Char), word.length ≤ col →
    ∀ m ∈ (extendRight g fuel word tree col rack).1,
      rowShape g.b g.row g.rowscore m := by
  intro fuel
  induction fuel with
  | zero => intro word tree col rack _ m hm; simp [extendRight] at hm
  | succ fuel ih =>
    intro word tree col rack hlen m hm
    rcases tree with _ | t
    · simp [extendRight] at hm
    · rw [extendRight] at hm
      by_cases h1 : col < g.b.dim ∧ (g.b.squares g.row col).letter ≠ none
      · rw [if_pos h1] at hm
        simp only [] at hm
        rcases hstep : Lex.step t (((g.b.squares g.row col).letter).getD 'A').toUpper
          with _ | t2
        · rw [hstep] at hm
          simp at hm
        · rw [hstep] at hm
          exact ih _ _ _ _ (by simpa using Nat.succ_le_succ hlen) m hm
      · rw [if_neg h1] at hm
        have hemit : ∀ m2 ∈ (if col > g.anchor ∧ t.final then
            [⟨some (g.row : Int), some (((col - word.length : Nat) : Int)), .across, word,
              List.replicate word.length true,
              scoreWord g.b g.row g.rowscore word col⟩] else ([] : List Move)),
            rowShape g.b g.row g.rowscore m2 := by
          intro m2 hm2
          split at hm2
          · rw [List.mem_singleton] at hm2
            subst hm2
            exact ⟨rfl, rfl, col, hlen, rfl, rfl⟩
          · simp at hm2
        by_cases h2 : col < g.b.dim
        · rw [if_pos h2] at hm
          simp only [] at hm
          rw [List.mem_append] at hm
          rcases hm with hm | hm
          · exact hemit m hm
          · have hfold : ∀ (acc : List Move × List Char),
                (∀ m2 ∈ acc.1, rowShape g.b g.row g.rowscore m2) →
                ∀ m2 ∈ (t.nextL.foldl (fun acc l =>
                  if l ∈ g.rowcross col then
                    let br1 : List Move × List Char :=
                      if l ∈ acc.2 then
                        let ra := extendRight g fuel (word ++ [l]) (t.step l) (col + 1)
                          (removeFirst acc.2 l)
                        (ra.1, ra.2 ++ [l])
                      else ([], acc.2)
                    let br2 : List Move × List Char :=
                      if '?' ∈ br1.2 then
                        let rb := extendRight g fuel (word ++ [l.toLower]) (t.step l) (col + 1)
                          (removeFirst br1.2 '?')
                        (rb.1, rb.2 ++ ['?'])
                      else ([], br1.2)
                    (acc.1 ++ br1.1 ++ br2.1, br2.2)
                  else acc) acc).1, rowShape g.b g.row g.rowscore m2 := by
              intro acc hacc
              refine foldl_inv t.nextL _
                (fun acc => ∀ m2 ∈ acc.1, rowShape g.b g.row g.rowscore m2) ?_ acc hacc
              intro acc2 l _ hacc2
              have hlen2 : (word ++ [l]).length ≤ col + 1 := by
                simpa using Nat.succ_le_succ hlen
              have hlen3 : (word ++ [l.toLower]).length ≤ col + 1 := by
                simpa using Nat.succ_le_succ hlen
              by_cases hcr : l ∈ g.rowcross col
              · rw [if_pos hcr]
                simp only []
                by_cases hl : l ∈ acc2.2
                · rw [if_pos hl]
                  simp only []
                  by_cases hq : '?' ∈ (extendRight g fuel (word ++ [l]) (t.step l) (col + 1)
                      (removeFirst acc2.2 l)).2 ++ [l]
                  · rw [if_pos hq]
                    simp only []
                    intro m2 hm2
                    simp only [List.mem_append] at hm2
                    rcases hm2 with (hm2 | hm2) | hm2
                    · exact hacc2 m2 hm2
                    · exact ih _ _ _ _ hlen2 m2 hm2
                    · exact ih _ _ _ _ hlen3 m2 hm2
                  · rw [if_neg hq]
                    simp only []
                    intro m2 hm2
                    simp only [List.mem_append, List.not_mem_nil, or_false, false_or] at hm2
                    rcases hm2 with hm2 | hm2
                    · exact hacc2 m2 hm2
                    · exact ih _ _ _ _ hlen2 m2 hm2
                · rw [if_neg hl]
                  simp only []
                  by_cases hq : '?' ∈ acc2.2
                  · rw [if_pos hq]
                    simp only []
                    intro m2 hm2
                    simp only [List.mem_append, List.not_mem_nil, or_false, false_or] at hm2
                    rcases hm2 with hm2 | hm2
                    · exact hacc2 m2 hm2
                    · exact ih _ _ _ _ hlen3 m2 hm2
                  · rw [if_neg hq]
                    simp only []
                    intro m2 hm2
                    simp only [List.mem_append, List.not_mem_nil, or_false, false_or] at hm2
                    exact hacc2 m2 hm2
              · rw [if_neg hcr]
                exact hacc2
            exact hfold ([], rack) (by simp) m hm
        · rw [if_neg h2] at hm
          exact hemit m hm

theorem leftSearch_shape (g : GenCtx) (fuel : Nat) : ∀ (limit : Nat) (t : Lex)
    (word rack : List Char), word.length + limit ≤ g.anchor →
    ∀ m ∈ (leftSearch g fuel limit t word rack).1, rowShape g.b g.row g.rowscore m := by
  intro limit
  induction limit with
  | zero =>
    intro t word rack hlen m hm
    exact extendRight_shape g fuel word (some t) g.anchor rack (by omega) m hm
  | succ lim ih =>
    intro t word rack hlen m hm
    rw [leftSearch] at hm
    simp only [] at hm
    rw [List.mem_append] at hm
    rcases hm with hm | hm
    · exact extendRight_shape g fuel word (some t) g.anchor rack (by omega) m hm
    · have hfold : ∀ (acc : List Move × List Char),
          (∀ m2 ∈ acc.1, rowShape g.b g.row g.rowscore m2) →
          ∀ m2 ∈ (t.nextL.foldl (fun acc l =>
            let br1 : List Move × List Char :=
              if l ∈ acc.2 then
                let ra := leftSearch g fuel lim ((t.step l).getD Lex.empty) (word ++ [l])
                  (removeFirst acc.2 l)
                (ra.1, ra.2 ++ [l])
              else ([], acc.2)
            let br2 : List Move × List Char :=
              if '?' ∈ br1.2 then
                let rb := leftSearch g fuel lim ((t.step l).getD Lex.empty) (word ++ [l.toLower])
                  (removeFirst br1.2 '?')
                (rb.1, rb.2 ++ ['?'])
              else ([], br1.2)
            (acc.1 ++ br1.1 ++ br2.1, br2.2)) acc).1,
          rowShape g.b g.row g.rowscore m2 := by
        intro acc hacc
        refine foldl_inv t.nextL _
          (fun acc => ∀ m2 ∈ acc.1, rowShape g.b g.row g.rowscore m2) ?_ acc hacc
        intro acc2 l _ hacc2
        have hlen2 : (word ++ [l]).length + lim ≤ g.anchor := by
          simp only [List.length_append, List.length_singleton]
          omega
        have hlen3 : (word ++ [l.toLower]).length + lim ≤ g.anchor := by
          simp only [List.length_append, List.length_singleton]
          omega
        by_cases hl : l ∈ acc2.2
        · rw [if_pos hl]
          simp only []
          by_cases hq : '?' ∈ (leftSearch g fuel lim ((t.step l).getD Lex.empty) (word ++ [l])
              (removeFirst acc2.2 l)).2 ++ [l]
          · rw [if_pos hq]
            simp only []
            intro m2 hm2
            simp only [List.mem_append, List.not_mem_nil, or_false, false_or] at hm2
            rcases hm2 with (hm2 | hm2) | hm2
            · exact hacc2 m2 hm2
            · exact ih _ _ _ hlen2 m2 hm2
            · exact ih _ _ _ hlen3 m2 hm2
          · rw [if_neg hq]
            simp only []
            intro m2 hm2
            simp only [List.mem_append, List.not_mem_nil, or_false, false_or] at hm2
            rcases hm2 with hm2 | hm2
            · exact hacc2 m2 hm2
            · exact ih _ _ _ hlen2 m2 hm2
        · rw [if_neg hl]
          simp only []
          by_cases hq : '?' ∈ acc2.2
          · rw [if_pos hq]
            simp only []
            intro m2 hm2
            simp only [List.mem_append, List.not_mem_nil, or_false, false_or] at hm2
            rcases hm2 with hm2 | hm2
            · exact hacc2 m2 hm2
            · exact ih _ _ _ hlen3 m2 hm2
          · rw [if_neg hq]
            simp only []
            intro m2 hm2
            simp only [List.mem_append, List.not_mem_nil, or_false, false_or] at hm2
            exact hacc2 m2 hm2
      exact hfold ([], (extendRight g fuel word (some t) g.anchor rack).2) (by simp) m hm

theorem fixedLeft_le (b : Board) (row : Nat) (pa : Int) (anchor : Nat) :
    (fixedLeft b row pa anchor).length ≤ anchor := by
  unfold fixedLeft
  refine le_trans (List.length_filterMap_le _ _) ?_
  rw [List.length_range']
  exact Nat.sub_le _ _

theorem anchorLoop_shape (b : Board) (lex : Lex) (row : Nat) (rowcross : Nat → List Char)
    (rowscore : Nat → Option Int) : ∀ (anchors : List Nat) (pa : Int) (rack : List Char),
    -1 ≤ pa → ∀ m ∈ (anchorLoop b lex row rowcross rowscore anchors pa rack).1,
    rowShape b row rowscore m := by
  intro anchors
  induction anchors with
  | nil => intro pa rack _ m hm; simp [anchorLoop] at hm
  | cons anchor restA ih =>
    intro pa rack hpa m hm
    rw [anchorLoop] at hm
    simp only [] at hm
    rw [List.mem_append] at hm
    rcases hm with hm | hm
    · by_cases hfix : anchor = 0 ∨ (b.squares row (anchor - 1)).letter ≠ none
      · rw [if_pos hfix] at hm
        exact extendRight_shape ⟨b, row, anchor, rowcross, rowscore⟩ (b.dim + 1) _ _ anchor rack
          (fixedLeft_le b row pa anchor) m hm
      · rw [if_neg hfix] at hm
        refine leftSearch_shape ⟨b, row, anchor, rowcross, rowscore⟩ (b.dim + 1) _ lex [] rack
          ?_ m hm
        show List.length [] + ((anchor - pa - 1 : Int)).toNat ≤ anchor
        simp only [List.length_nil, Nat.zero_add]
        omega
    · exact ih (anchor : Int) _ (by omega) m hm

/-- Shape of every across-pass move with the cross-score table instantiated:
score equals the spec formula on this board. -/
def specShapeAcross (b : Board) (m : Move) : Prop :=
  m.kind = .across ∧ ∃ row endc : Nat, m.row = some (row : Int) ∧
    m.word.length ≤ endc ∧ m.col = some (((endc - m.word.length : Nat) : Int)) ∧
    m.score = specScoreWord b row m.word endc

theorem rowLoop_shape (b : Board) (lex : Lex) : ∀ (rows : List Nat) (rack : List Char),
    ∀ m ∈ (rowLoop b lex rows rack).1, specShapeAcross b m := by
  intro rows
  induction rows with
  | nil => intro rack m hm; simp [rowLoop] at hm
  | cons row restR ih =>
    intro rack m hm
    rw [rowLoop] at hm
    simp only [] at hm
    rw [List.mem_append] at hm
    rcases hm with hm | hm
    · obtain ⟨hk, hrow, endc, hlen, hcol, hscore⟩ :=
        anchorLoop_shape b lex row _ _ (rowAnchors b row) (-1) rack (by omega) m hm
      exact ⟨hk, row, endc, hrow, hlen, hcol, by rw [hscore, scoreWord_eq_spec]⟩
    · exact ih _ m hm

/-- C2: every move emitted by the generator carries the spec's score.  An
ACROSS move's score is the spec scoring formula evaluated on this board along
its row at its end column; a DOWN move comes from the pass on the transposed
board and its score is the formula on that transposed view along its line of
play, per the spec's transposition rule. -/
theorem c2_generator_scores (b : Board) (rack : List Char) (lex : Lex) :
    ∀ m ∈ (b.validMoves rack lex).1,
      (m.kind = .across ∧ ∃ row endc : Nat, m.row = some (row : Int) ∧
        m.word.length ≤ endc ∧ m.col = some (((endc - m.word.length : Nat) : Int)) ∧
        m.score = specScoreWord b row m.word endc) ∨
      (m.kind = .down ∧ ∃ col endr : Nat, m.col = some (col : Int) ∧
        m.word.length ≤ endr ∧ m.row = some (((endr - m.word.length : Nat) : Int)) ∧
        m.score = specScoreWord (flipSquares b) col m.word endr) := by
  intro m hm
  unfold Board.validMoves at hm
  simp only [] at hm
  rw [List.mem_append] at hm
  rcases hm with hm | hm
  · exact Or.inl (rowLoop_shape b lex _ rack m hm)
  · rw [List.mem_map] at hm
    obtain ⟨m0, hm0, heq⟩ := hm
    obtain ⟨hk, row, endc, hrow, hlen, hcol, hscore⟩ :=
      rowLoop_shape (flipSquares b) lex _ rack m0 hm0
    subst heq
    exact Or.inr ⟨rfl, row, endc, hrow, hlen, hcol, hscore⟩

theorem c2_generator_scores_witness :
    ((⟨some 2, some 0, MoveKind.across, ("FOOD".toList), [true, true, true, true], 8⟩ :
        Move).kind = .across ∧
      ∃ row endc : Nat,
        (⟨some 2, some 0, MoveKind.across, ("FOOD".toList), [true, true, true, true], 8⟩ :
          Move).row = some (row : Int) ∧
        (("FOOD".toList) : List Char).length ≤ endc ∧
        (⟨some 2, some 0, MoveKind.across, ("FOOD".toList), [true, true, true, true], 8⟩ :
          Move).col = some (((endc - (("FOOD".toList) : List Char).length : Nat) : Int)) ∧
        (8 : Int) = specScoreWord c1Board row ("FOOD".toList) endc) ∨
    ((⟨some 2, some 0, MoveKind.across, ("FOOD".toList), [true, true, true, true], 8⟩ :
        Move).kind = .down ∧
      ∃ col endr : Nat,
        (⟨some 2, some 0, MoveKind.across, ("FOOD".toList), [true, true, true, true], 8⟩ :
          Move).col = some (col : Int) ∧
        (("FOOD".toList) : List Char).length ≤ endr ∧
        (⟨some 2, some 0, MoveKind.across, ("FOOD".toList), [true, true, true, true], 8⟩ :
          Move).row = some (((endr - (("FOOD".toList) : List Char).length : Nat) : Int)) ∧
        (8 : Int) = specScoreWord (flipSquares c1Board) col ("FOOD".toList) endr) :=
  c2_generator_scores c1Board ("D".toList) c1Lex
    ⟨some 2, some 0, MoveKind.across, ("FOOD".toList), [true, true, true, true], 8⟩
    (by decide)

/-! ### Referee (src/scrabbler/referee.py)

One turn of Referee.run, from the point the current player's move has been
received.  The deterministic draw path (random_draw=False, head of the bag)
is embedded; the random path only changes which tiles are drawn, which no
claim depends on.  Errors distinguish InvalidMoveError from the plain
ValueError that list.remove raises: the referee's except clause catches only
the former, so the latter propagates out of run (outcome `crashed`).  The
moves log is bookkeeping only and is not modelled. -/

inductive RefErr where
  | invalidMove (msg : List Char)
  | valueErr (msg : List Char)
deriving DecidableEq, Repr

structure PlayerSt where
  rack : List Char
  score : Int
  lastmove : Option Move
  lastdrawn : List Char

structure RefState where
  board : Board
  bag : List Char
  current : PlayerSt
  other : PlayerSt
  skips : Nat

/-- Sum of letter values of a rack, as in the final adjustments. -/
def rackValue (b : Board) (rack : List Char) : Int :=
  (rack.map b.letterValue).sum

/-- list.remove for each glyph in order; stops at the first absent glyph with
the ValueError state (glyphs removed so far stay removed). -/
def removeGlyphs : List Char → List Char → List Char × Option RefErr
  | [], rack => (rack, none)
  | g :: rest, rack =>
    if g ∈ rack then removeGlyphs rest (removeFirst rack g)
    else (rack, some (.valueErr ("list.remove(x): x not in list".toList)))

/-- Rack removal for a placement: walk the move, and on each square that holds
no letter remove the uppercase glyph itself or a blank for a lowercase one. -/
def removePlacedGlyphs (b : Board) : List (Char × Int × Int) → List Char →
    List Char × Option RefErr
  | [], rack => (rack, none)
  | p :: rest, rack =>
    if (b.sq p.2.1 p.2.2).letter = none then
      let g := if p.1.isUpper then p.1 else '?'
      if g ∈ rack then removePlacedGlyphs b rest (removeFirst rack g)
      else (rack, some (.valueErr ("list.remove(x): x not in list".toList)))
    else removePlacedGlyphs b rest rack

/-- Result of the turn body up to (and including) playing the move onto the
board: the state reached, or the state at the moment an exception was
raised. -/
inductive CoreRes where
  | ok (s : RefState) (m : Move)
  | err (s : RefState) (e : RefErr)

/-- The turn body: validate the submitted move (replacing a placement by the
authoritative generated move, compared by canonical string), add its score,
remove the used tiles from the rack, draw head-of-bag replacements, return
exchanged tiles to the bag after the draw, and play the move on the board. -/
def turnCore (lex : Lex) (s : RefState) (m : Move) : CoreRes :=
  let validated : CoreRes :=
    if m.kind = .trade then
      if m.word ≠ [] ∧ s.bag.length < s.board.rackSize then
        .err s (.invalidMove ("attempt to exchange with a short bag".toList))
      else .ok s m
    else
      match (s.board.validMoves s.current.rack lex).1.find?
          (fun m2 => decide (m2.toStr = m.toStr)) with
      | some m2 => .ok s m2
      | none => .err s (.invalidMove ("invalid move: ".toList ++ m.toStr))
  match validated with
  | .err s e => .err s e
  | .ok s m2 =>
    let s1 : RefState := { s with current := { s.current with
        score := s.current.score + m2.score, lastmove := some m2 } }
    let removal : List Char × Option RefErr :=
      if m2.kind = .trade then removeGlyphs m2.word s1.current.rack
      else removePlacedGlyphs s1.board m2.movePairs s1.current.rack
    match removal.2 with
    | some e => .err { s1 with current := { s1.current with rack := removal.1 } } e
    | none =>
      let n := min (s1.board.rackSize - removal.1.length) s1.bag.length
      let letters := s1.bag.take n
      let s2 : RefState := { s1 with
          bag := s1.bag.drop n,
          current := { s1.current with rack := removal.1 ++ letters, lastdrawn := letters } }
      let s3 : RefState :=
        if m2.kind = .trade then { s2 with bag := s2.bag ++ m2.word } else s2
      let played := s3.board.playSt m2
      match played.2 with
      | some msg => .err { s3 with board := played.1 } (.invalidMove msg)
      | none => .ok { s3 with board := played.1 } m2

inductive TurnOutcome where
  | next (s : RefState)
  | gameOver (s : RefState)
  | invalidEnd (s : RefState) (msg : List Char)
  | crashed (msg : List Char)

/-- The skip counter and termination tests at the end of a successful turn:
a TRADE (empty or not) increments the counter, a placement resets it; at six
consecutive skips each player's rack value is subtracted and the game ends;
with an empty bag and empty rack the current player gains twice the
opponent's rack value and the game ends. -/
def finishTurn (s : RefState) (m : Move) : TurnOutcome :=
  let skips2 := if m.kind = .trade then s.skips + 1 else 0
  let s2 : RefState := { s with skips := skips2 }
  if skips2 = 6 then
    .gameOver { s2 with
      current := { s2.current with score := s2.current.score - rackValue s2.board s2.current.rack },
      other := { s2.other with score := s2.other.score - rackValue s2.board s2.other.rack } }
  else if s2.bag = [] ∧ s2.current.rack = [] then
    .gameOver { s2 with
      current := { s2.current with
        score := s2.current.score + 2 * rackValue s2.board s2.other.rack } }
  else .next s2

/-- One full referee turn.  The except clause of Referee.run catches only
InvalidMoveError — logging the message, setting the offending player's score
to -1 and ending the game; a plain ValueError is not caught and the run
crashes. -/
def refereeTurn (lex : Lex) (s : RefState) (m : Move) : TurnOutcome :=
  match turnCore lex s m with
  | .ok s2 m2 => finishTurn s2 m2
  | .err s2 (.invalidMove msg) =>
    .invalidEnd { s2 with current := { s2.current with score := -1 } } msg
  | .err _ (.valueErr msg) => .crashed msg

def TurnOutcome.stateSkips : TurnOutcome → Option Nat
  | .next s => some s.skips
  | .gameOver s => some s.skips
  | .invalidEnd s _ => some s.skips
  | .crashed _ => none

/-- C7: after six consecutive TRADE moves the game ends with each player's
score decreased by exactly the letter value of that player's remaining rack.
Any completed TRADE turn — empty pass or non-empty exchange alike — moves the
consecutive-skip counter from its entry value to one more; a successful
placement resets it to zero; and when the counter reaches six the turn ends
the game with both scores adjusted by the rack values held after that turn's
draw. -/
theorem c7_six_trades (lex : Lex) (s : RefState) (m : Move) (s2 : RefState) (m2 : Move)
    (hcore : turnCore lex s m = .ok s2 m2) :
    (m2.kind = .trade → (refereeTurn lex s m).stateSkips = some (s2.skips + 1)) ∧
    (m2.kind ≠ .trade → (refereeTurn lex s m).stateSkips = some 0) ∧
    (m2.kind = .trade → s2.skips = 5 → refereeTurn lex s m =
      .gameOver { s2 with
        skips := 6
        current := { s2.current with
          score := s2.current.score - rackValue s2.board s2.current.rack }
        other := { s2.other with
          score := s2.other.score - rackValue s2.board s2.other.rack } }) := by
  refine ⟨?_, ?_, ?_⟩
  · intro hk
    unfold refereeTurn
    rw [hcore]
    simp only []
    unfold finishTurn
    rw [if_pos hk]
    by_cases h6 : s.skips + 1 = 6
    all_goals by_cases hoot : s.bag = [] ∧ s.current.rack = []
    all_goals simp only []
    all_goals split <;> try split
    all_goals simp_all [TurnOutcome.stateSkips]
  · intro hk
    unfold refereeTurn
    rw [hcore]
    simp only []
    unfold finishTurn
    rw [if_neg hk]
    simp only []
    split <;> try split
    all_goals simp_all [TurnOutcome.stateSkips]
  · intro hk h5
    unfold refereeTurn
    rw [hcore]
    simp only []
    unfold finishTurn
    rw [if_pos hk, h5]
    rfl

def c7Board : Board := testBoard5

def c7State : RefState :=
  ⟨c7Board, ("OOOOOOOO".toList), ⟨("FO".toList), 10, none, []⟩,
    ⟨("D".toList), 20, none, []⟩, 5⟩

def c7Pass : Move := ⟨none, none, .trade, [], [], 0⟩

theorem c7_six_trades_witness :
    (match refereeTurn Lex.empty c7State c7Pass with
     | .gameOver s3 => some (s3.current.score, s3.other.score, s3.skips)
     | _ => none) = some (0, 18, 6) := by
  have h := (c7_six_trades Lex.empty c7State c7Pass _ _ rfl).2.2 rfl rfl
  rw [h]
  rfl

/-! ### Claims C3 and C5: the referee's error handling, evaluated at the
test scenarios of test_game.py -/

def c3Board : Board :=
  ⟨2, true, 50, 7, [('A', 1), ('Z', 10)], [], fun _ _ => Square.blank⟩

def c3State : RefState :=
  ⟨c3Board, ("AAAA".toList), ⟨("AAAAAAA".toList), 0, none, []⟩,
    ⟨("AAAAAAA".toList), 4, none, []⟩, 0⟩

def c3Bad : Move :=
  ⟨some 0, some 0, .down, ("ZZZZZZZ".toList), List.replicate 7 true, 0⟩

/-- C3 (failing-input evaluation): a submitted placement outside the legal set
raises InvalidMoveError, which the referee catches and ends the game on — but
it then sets the offending player's score to -1 instead of leaving it as it
stood (0 here, as the repository's own test expects), records the message only
in the log, and leaves the opponent's score unchanged. -/
theorem c3_referee_invalid_eval :
    (match refereeTurn Lex.empty c3State c3Bad with
     | .invalidEnd s3 msg => some (s3.current.score, s3.other.score, msg)
     | _ => none) = some (-1, 4, ("invalid move: ZZZZZZZ A1".toList)) := by
  decide

def c5State : RefState :=
  ⟨c3Board, ("AAAAAAAA".toList), ⟨("AAAAAAA".toList), 0, none, []⟩,
    ⟨("AAAAAAA".toList), 4, none, []⟩, 0⟩

def c5Trade : Move :=
  ⟨none, none, .trade, ("ZZZZZZZ".toList), List.replicate 7 true, 0⟩

/-- C5 (failing-input evaluation): exchanging seven Z's from a rack of A's
passes the exchange-size validation, then the glyph removal hits an absent
glyph.  list.remove raises a plain ValueError, which the referee's except
InvalidMoveError clause does not catch, so the run crashes instead of ending
the game cleanly with the error recorded, as the claim (and the repository's
own test) requires. -/
theorem c5_trade_removal_eval :
    (match refereeTurn Lex.empty c5State c5Trade with
     | .crashed msg => some msg
     | _ => none) = some ("list.remove(x): x not in list".toList) := by
  decide

end Scrabbler
